import Mathlib

/-!
Verification development for the prompt-compare repository
(`src/enhanced_link_validation.py`, `src/multi_prompt_evaluator.py`).

The Python source is shallowly embedded as executable Lean functions:

* `extractL` / `extract_links` embeds `EnhancedLinkValidator.extract_links`,
  including a direct model of the two `re.findall` patterns
  (`https?://...` and `www\....`, both case-insensitive), the trailing
  punctuation stripping, the `www.`-prefix rewriting, the length/dot
  filter and the first-seen deduplication.
* `splitScheme` / `netlocOf` embeds the parts of `urllib.parse.urlparse`
  consulted by the validator (scheme and netloc extraction).
* `validateAttempt` embeds `EnhancedLinkValidator.validate_single_link_attempt`;
  network I/O is abstracted by an environment `Method → NetOutcome`, and the
  list of methods actually invoked is returned alongside the result so that
  "no network call" is expressible.  Measured wall-clock latency is
  abstracted by a parameter (the code records elapsed `time.time()`).
* `validateSingle` embeds `EnhancedLinkValidator.validate_single_link`
  (the retry loop with its best-result selection).
* `validate_links` embeds `EnhancedLinkValidator.validate_links`; the
  thread pool is modelled sequentially (each URL is processed
  independently in the code, and the claims only concern the multiset of
  results, the empty-input behaviour and per-URL exception conversion);
  exceptions raised while probing a URL are abstracted by an oracle.
* `runSingleSummary` embeds the aggregation in
  `MultiPromptEvaluator.run_single_prompt_evaluation`.
* `bestPromptForLinks` embeds the best-for-links selection in
  `MultiPromptEvaluator.generate_comparison_summary` (Python floats are
  modelled by `ℚ`).
* `runMulti` embeds the gate/loop structure of
  `MultiPromptEvaluator.run_multi_prompt_evaluation` together with
  `wait_for_prompt_change` (directives: ENTER / `skip` / `quit`, where
  `quit` performs `sys.exit(0)`).
-/

/-! ## Character classes of the two URL regular expressions -/

/-- `\w` for ASCII text (the claims and counterexamples stay in ASCII). -/
def isWordChar (c : Char) : Bool := c.isAlpha || c.isDigit || c == '_'

/-- The class `[-\w.]` used for the host part of both patterns. -/
def isHostChar (c : Char) : Bool := c == '-' || isWordChar c || c == '.'

/-- `[\da-fA-F]`, the hex digits accepted after `%` in the first pattern. -/
def isHexDig (c : Char) : Bool :=
  c.isDigit || ('a' ≤ c && c ≤ 'f') || ('A' ≤ c && c ≤ 'F')

/-- The class `[-\w%!./?=&+#]` of the path part of both patterns. -/
def isPathChar (c : Char) : Bool :=
  c == '-' || isWordChar c || c == '%' || c == '!' || c == '.' || c == '/' ||
  c == '?' || c == '=' || c == '&' || c == '+' || c == '#'

/-- Case-insensitive comparison against a lower/upper pair of letters. -/
def chEq (c a b : Char) : Bool := c == a || c == b

/-! ## Greedy scanners for the pattern pieces -/

/-- Greedy scan for `(?:[-\w.]|(?:%[\da-fA-F]{2}))+` (zero or more steps):
returns the consumed characters and the rest. -/
def scanHost1 : List Char → List Char × List Char
  | [] => ([], [])
  | c :: cs =>
    if isHostChar c then
      let p := scanHost1 cs
      (c :: p.1, p.2)
    else if c == '%' then
      match cs with
      | h1 :: h2 :: cs' =>
        if isHexDig h1 && isHexDig h2 then
          let p := scanHost1 cs'
          (c :: h1 :: h2 :: p.1, p.2)
        else ([], c :: cs)
      | _ => ([], c :: cs)
    else ([], c :: cs)

/-- Greedy scan for `(?:/[-\w%!./?=&+#]*)*`.  Since `/` is itself in the
iterated class, the whole construct consumes, when the next character is
`/`, the longest run of path characters, and nothing otherwise. -/
def scanPath (s : List Char) : List Char × List Char :=
  match s with
  | [] => ([], [])
  | c :: _ =>
    if c = '/' then (s.takeWhile isPathChar, s.dropWhile isPathChar)
    else ([], s)

/-- Recognize `https?://` case-insensitively at the head; returns the
matched scheme characters (as they appear in the text) and the rest. -/
def stripHttpHead : List Char → Option (List Char × List Char)
  | c0 :: c1 :: c2 :: c3 :: rest =>
    if chEq c0 'h' 'H' && chEq c1 't' 'T' && chEq c2 't' 'T' && chEq c3 'p' 'P' then
      match rest with
      | c4 :: c5 :: c6 :: c7 :: rest' =>
        if chEq c4 's' 'S' then
          if c5 == ':' && c6 == '/' && c7 == '/' then
            some ([c0, c1, c2, c3, c4, c5, c6, c7], rest')
          else none
        else if c4 == ':' && c5 == '/' && c6 == '/' then
          some ([c0, c1, c2, c3, c4, c5, c6], c7 :: rest')
        else none
      | [c4, c5, c6] =>
        if c4 == ':' && c5 == '/' && c6 == '/' then
          some ([c0, c1, c2, c3, c4, c5, c6], [])
        else none
      | _ => none
    else none
  | _ => none

/-- One attempted match of `https?://(?:[-\w.]|(?:%[\da-fA-F]{2}))+(?:/[-\w%!./?=&+#]*)*`
at the head of the input: `some (match, rest)` on success. -/
def matchP1 (s : List Char) : Option (List Char × List Char) :=
  match stripHttpHead s with
  | none => none
  | some (pre, rest) =>
    let h := scanHost1 rest
    if h.1.isEmpty then none
    else
      let p := scanPath h.2
      some (pre ++ h.1 ++ p.1, p.2)

/-- One attempted match of `www\.(?:[-\w.])+(?:/[-\w%!./?=&+#]*)*`
(case-insensitive) at the head of the input. -/
def matchP2 (s : List Char) : Option (List Char × List Char) :=
  match s with
  | c0 :: c1 :: c2 :: c3 :: rest =>
    if chEq c0 'w' 'W' && chEq c1 'w' 'W' && chEq c2 'w' 'W' && c3 == '.' then
      let h := rest.takeWhile isHostChar
      if h.isEmpty then none
      else
        let p := scanPath (rest.dropWhile isHostChar)
        some (c0 :: c1 :: c2 :: c3 :: (h ++ p.1), p.2)
    else none
  | _ => none

/-- Scanner core of `re.findall`: at skip counter `0`, try to match at the
current position; on success emit the match and skip past it, otherwise
move one character right.  Non-overlapping leftmost matches, as in Python. -/
def goF (m : List Char → Option (List Char × List Char)) :
    List Char → Nat → List (List Char)
  | [], _ => []
  | _ :: cs, k + 1 => goF m cs k
  | c :: cs, 0 =>
    match m (c :: cs) with
    | some (a, _) => a :: goF m cs (a.length - 1)
    | none => goF m cs 0

/-- `re.findall pattern text` for one of our two patterns. -/
def findAll (m : List Char → Option (List Char × List Char)) (s : List Char) :
    List (List Char) := goF m s 0

/-! ## Cleaning, deduplication, extraction -/

/-- The trailing punctuation characters `.,:;!?)]}>"'` stripped by the loop
`while link and link[-1] in '.,:;!?)]}>"\''`. -/
def isStripChar (c : Char) : Bool :=
  c == '.' || c == ',' || c == ':' || c == ';' || c == '!' || c == '?' ||
  c == ')' || c == ']' || c == '\x7d' || c == '>' || c == '"' || c == '\''

/-- Iterated right-edge stripping of punctuation. -/
def stripTrail (l : List Char) : List Char :=
  ((l.reverse).dropWhile isStripChar).reverse

/-- `pat` occurs at the head of the second list (`str.startswith`). -/
def leadsWith : List Char → List Char → Bool
  | [], _ => true
  | _ :: _, [] => false
  | a :: as, b :: bs => a == b && leadsWith as bs

/-- The body of the cleaning loop of `extract_links`: rewrite a
(case-sensitively) `www.`-prefixed candidate with `https://`, strip the
right edge, keep the candidate when nonempty, longer than 10 characters
and containing a dot. -/
def cleanLink (l : List Char) : Option (List Char) :=
  let l1 := if leadsWith ['w', 'w', 'w', '.'] l
            then 'h' :: 't' :: 't' :: 'p' :: 's' :: ':' :: '/' :: '/' :: l
            else l
  let l2 := stripTrail l1
  if !l2.isEmpty && decide (10 < l2.length) && l2.contains '.' then some l2
  else none

/-- First-seen deduplication (`seen` set plus ordered accumulation). -/
def dedupGo : List (List Char) → List (List Char) → List (List Char)
  | _, [] => []
  | seen, x :: xs =>
    if x ∈ seen then dedupGo seen xs else x :: dedupGo (x :: seen) xs

/-- First-seen deduplication of a list of candidate links. -/
def dedupF (l : List (List Char)) : List (List Char) := dedupGo [] l

/-- `EnhancedLinkValidator.extract_links`, on the character-list level:
matches of the scheme pattern, then matches of the www pattern, cleaned
and deduplicated in first-seen order. -/
def extractL (t : List Char) : List (List Char) :=
  dedupF ((findAll matchP1 t ++ findAll matchP2 t).filterMap cleanLink)

/-- `EnhancedLinkValidator.extract_links` on strings. -/
def extract_links (t : String) : List String :=
  (extractL t.data).map (fun l => String.mk l)

/-- Join a list of links with single spaces (the text formed from the
extractor's own output, used to state idempotence). -/
def joinL : List (List Char) → List Char
  | [] => []
  | [u] => u
  | u :: us => u ++ ' ' :: joinL us

/-- String-level space join. -/
def spaceJoin (us : List String) : String :=
  String.mk (joinL (us.map String.data))

/-- Index of the first occurrence of `pat` as a contiguous substring. -/
def indexOfSub (pat : List Char) : List Char → Option Nat
  | [] => if leadsWith pat [] then some 0 else none
  | c :: ts =>
    if leadsWith pat (c :: ts) then some 0
    else (indexOfSub pat ts).map (· + 1)

/-! ## `urllib.parse.urlparse`, as consulted by the prober -/

/-- Characters allowed in a scheme after its initial letter. -/
def isSchemeChar (c : Char) : Bool :=
  c.isAlpha || c.isDigit || c == '+' || c == '-' || c == '.'

/-- Scheme extraction of `urlparse`: the text before the first `:` is the
scheme when it is nonempty, starts with a letter and consists of scheme
characters; returns `(scheme, rest-after-colon)`. -/
def splitScheme (u : List Char) : Option (List Char × List Char) :=
  let pre := u.takeWhile (fun c => !(c == ':'))
  match u.dropWhile (fun c => !(c == ':')) with
  | [] => none
  | _ :: rest =>
    match pre with
    | [] => none
    | c :: cs => if c.isAlpha && cs.all isSchemeChar then some (pre, rest) else none

/-- Netloc extraction of `urlparse`: after removing the scheme, a `//`
head introduces the netloc, which extends to the next `/`, `?` or `#`. -/
def netlocOf (u : List Char) : List Char :=
  let rest := match splitScheme u with
    | some pr => pr.2
    | none => u
  match rest with
  | '/' :: '/' :: r2 => r2.takeWhile (fun c => !(c == '/') && !(c == '?') && !(c == '#'))
  | _ => []

/-! ## The link prober (`validate_single_link_attempt`) -/

/-- The two HTTP method tiers tried, in order. -/
inductive Method where
  | HEAD : Method
  | GET : Method
deriving DecidableEq, Repr

/-- Outcome of one network request: a response (status code, final URL
after redirects, redirect count) or a raised exception message. -/
inductive NetOutcome where
  | ok (code : Nat) (finalUrl : String) (redirects : Nat) : NetOutcome
  | exn (msg : String) : NetOutcome
deriving DecidableEq, Repr

/-- The result dictionary built by `validate_single_link_attempt`
(`method_used` is absent, modelled `none`, on the malformed and
connection-failed paths). -/
structure AttemptResult where
  url : String
  status : String
  status_code : Option Nat
  error : Option String
  response_time_ms : Nat
  final_url : String
  redirects : Nat
  method_used : Option Method
  attempt : Nat
deriving DecidableEq, Repr

/-- The result returned when the parsed URL fails the scheme/netloc check. -/
def malformedRes (url : String) (attempt : Nat) : AttemptResult :=
  ⟨url, "invalid", none, some "Invalid URL format", 0, url, 0, none, attempt⟩

/-- The result returned when both method tiers raised exceptions. -/
def connFailedRes (url : String) (ms attempt : Nat) (e : String) : AttemptResult :=
  ⟨url, "invalid", none, some ("Connection failed: " ++ e), ms, url, 0, none, attempt⟩

/-- Status/error classification from a status code, as in the `if` chain of
the source; `none` encodes `continue` (escalate past the HEAD tier). -/
def classifyCode (m : Method) (code : Nat) : Option (String × Option String) :=
  if code < 400 then some ("valid", none)
  else if code = 404 then
    if m = Method.HEAD then none else some ("invalid", some "Page not found (404)")
  else if code = 403 then
    if m = Method.HEAD then none
    else some ("warning", some "Access forbidden (403) - may be bot protection")
  else if code = 429 then some ("warning", some "Rate limited (429) - try again later")
  else if 500 ≤ code then
    some ("warning", some ("Server error (" ++ toString code ++ ") - temporary issue"))
  else some ("invalid", some ("HTTP error (" ++ toString code ++ ")"))

/-- Build the result dictionary for a completed response on tier `m`. -/
def responseRes (url : String) (m : Method) (code : Nat) (fu : String)
    (rd ms attempt : Nat) (st : String) (err : Option String) : AttemptResult :=
  ⟨url, st, some code, err, ms, fu, rd, some m, attempt⟩

/-- The GET (escalation) tier of one attempt, reached after HEAD either
escalated or raised; `lastExn` is the exception captured so far. -/
def getTier (url : String) (env : Method → NetOutcome) (ms attempt : Nat)
    (lastExn : Option String) : AttemptResult × List Method :=
  match env Method.GET with
  | NetOutcome.ok code fu rd =>
    match classifyCode Method.GET code with
    | some (st, err) => (responseRes url Method.GET code fu rd ms attempt st err, [Method.HEAD, Method.GET])
    | none => (connFailedRes url ms attempt (match lastExn with
        | some e => e
        | none => "None"), [Method.HEAD, Method.GET])
  | NetOutcome.exn e => (connFailedRes url ms attempt e, [Method.HEAD, Method.GET])

/-- `EnhancedLinkValidator.validate_single_link_attempt`.  The network is
abstracted by `env`; the measured elapsed milliseconds by `ms`.  Besides
the result, the list of methods actually sent over the network is
returned (empty on the malformed short-circuit). -/
def validateAttempt (url : String) (env : Method → NetOutcome) (ms attempt : Nat) :
    AttemptResult × List Method :=
  if (splitScheme url.data).isNone || (netlocOf url.data).isEmpty then
    (malformedRes url attempt, [])
  else
    match env Method.HEAD with
    | NetOutcome.ok code fu rd =>
      match classifyCode Method.HEAD code with
      | some (st, err) => (responseRes url Method.HEAD code fu rd ms attempt st err, [Method.HEAD])
      | none => getTier url env ms attempt none
    | NetOutcome.exn e => getTier url env ms attempt (some e)

/-! ## The retry coordinator (`validate_single_link`) -/

/-- Classification rank used to state the best-effort selection policy. -/
def rank (s : String) : Nat :=
  if s = "valid" then 2 else if s = "warning" then 1 else 0

/-- The retry loop of `validate_single_link`: `attempt` is the next
attempt number, `rem` the attempts left, `best` the best result held.
Returns the final result (an option, as in the source, where the loop
body may never run) together with the number of attempts performed. -/
def vsGo (url : String) (envs : Nat → Method → NetOutcome) (ms : Nat) :
    Nat → Nat → Option AttemptResult → Option AttemptResult × Nat
  | attempt, 0, best => (best, attempt - 1)
  | attempt, rem + 1, best =>
    let r := (validateAttempt url (envs attempt) ms attempt).1
    if r.status = "valid" then (some r, attempt)
    else
      vsGo url envs ms (attempt + 1) rem
        (match best with
         | none => some r
         | some b => if r.status = "warning" && b.status = "invalid" then some r else some b)

/-- `EnhancedLinkValidator.validate_single_link` with `max_retries = maxR`;
the per-attempt network behaviour is given by `envs`. -/
def validateSingle (url : String) (envs : Nat → Method → NetOutcome)
    (ms maxR : Nat) : Option AttemptResult × Nat :=
  vsGo url envs ms 1 maxR none

/-! ## The concurrent validation pool (`validate_links`) -/

/-- The fallback result used when the attempt loop returned nothing
(unreachable for `max_retries ≥ 1`). -/
def noneRes (url : String) : AttemptResult :=
  ⟨url, "invalid", none, some "None", 0, url, 0, none, 0⟩

/-- One worker's contribution for one URL: an unexpected exception while
probing (oracle `exc`) is converted to an `invalid` result carrying the
exception text with attempt number 1; otherwise the retry coordinator
runs. -/
def convRes (url : String) (exc : String → Option String)
    (env : String → Nat → Method → NetOutcome) (ms maxR : Nat) : AttemptResult :=
  match exc url with
  | some e => ⟨url, "invalid", none, some ("Validation failed: " ++ e), 0, url, 0, none, 1⟩
  | none =>
    match (validateSingle url (env url) ms maxR).1 with
    | some r => r
    | none => noneRes url

/-- `EnhancedLinkValidator.validate_links`: empty input returns an empty
result set before any task is submitted; otherwise one task per URL is
submitted and each yields exactly one result.  The bounded worker pool is
modelled sequentially (results in submission order; the source collects
them in completion order, which the claims leave unconstrained).  The
second component is the number of probe tasks submitted. -/
def validate_links (urls : List String) (exc : String → Option String)
    (env : String → Nat → Method → NetOutcome) (ms maxR : Nat) :
    List AttemptResult × Nat :=
  if urls.isEmpty then ([], 0)
  else (urls.map (fun u => convRes u exc env ms maxR), urls.length)

/-! ## Per-prompt aggregation (`run_single_prompt_evaluation`) -/

/-- One API response row, as consumed by the aggregation loop. -/
structure RespRec where
  text : String
  time_ms : ℚ
  status : String
deriving DecidableEq, Repr

/-- The running `link_validation_summary` dictionary. -/
structure LinkSummary where
  total_links : Nat
  valid_links : Nat
  warning_links : Nat
  invalid_links : Nat
  questions_with_invalid_links : Nat
deriving DecidableEq, Repr

/-- Count of results with a given status string. -/
def countStatus (rs : List AttemptResult) (s : String) : Nat :=
  (rs.filter (fun r => r.status = s)).length

/-- The per-question update of the summary: extract links from the
response text, validate them (with `max_retries = 2`, the validator the
evaluator constructs), and add the counts. -/
def stepSummary (exc : String → Option String)
    (env : String → Nat → Method → NetOutcome) (ms : Nat)
    (acc : LinkSummary) (resp : RespRec) : LinkSummary :=
  let links := extract_links resp.text
  let res := (validate_links links exc env ms 2).1
  { total_links := acc.total_links + links.length
    valid_links := acc.valid_links + countStatus res "valid"
    warning_links := acc.warning_links + countStatus res "warning"
    invalid_links := acc.invalid_links + countStatus res "invalid"
    questions_with_invalid_links :=
      acc.questions_with_invalid_links +
        (if 0 < countStatus res "invalid" then 1 else 0) }

/-- The aggregation of `run_single_prompt_evaluation`: the link summary
folded over the responses, and the average response latency, guarded to
`0` for an empty response list. -/
def runSingleSummary (responses : List RespRec) (exc : String → Option String)
    (env : String → Nat → Method → NetOutcome) (ms : Nat) : LinkSummary × ℚ :=
  (responses.foldl (stepSummary exc env ms) ⟨0, 0, 0, 0, 0⟩,
   if responses.isEmpty then 0
   else (responses.map RespRec.time_ms).sum / responses.length)

/-! ## The comparison summary (`generate_comparison_summary`) -/

/-- The per-prompt numbers the summary reads for one evaluated version. -/
structure PromptStats where
  name : String
  total_links : Nat
  valid_links : Nat
  warning_links : Nat
  invalid_links : Nat
  avg_ms : ℚ
deriving DecidableEq, Repr

/-- Link success rate: `(valid+warning)/total * 100`, and `100` for a
zero-link total. -/
def linkRate (p : PromptStats) : ℚ :=
  if p.total_links = 0 then 100
  else ((p.valid_links : ℚ) + (p.warning_links : ℚ)) / (p.total_links : ℚ) * 100

/-- The best-for-links scan: the held best is replaced only on a strict
improvement of the success rate (`>` in the source). -/
def bestLinksGo : List PromptStats → ℚ → Option String → Option String
  | [], _, bn => bn
  | p :: ps, bs, bn =>
    if bs < linkRate p then bestLinksGo ps (linkRate p) (some p.name)
    else bestLinksGo ps bs bn

/-- `best_prompt_for_links` of `generate_comparison_summary`: scan the
ordered (insertion-ordered, i.e. evaluation-ordered) results once,
starting from score `-1` and no name. -/
def bestPromptForLinks (rs : List PromptStats) : Option String :=
  bestLinksGo rs (-1) none

/-! ## The multi-prompt orchestrator (`run_multi_prompt_evaluation`) -/

/-- The operator directives accepted at the human gate
(`wait_for_prompt_change`): ENTER, `skip`, or `quit` (which calls
`sys.exit(0)`). -/
inductive Directive where
  | proceed : Directive
  | skip : Directive
  | abort : Directive
deriving DecidableEq, Repr

/-- A prompt version (identity and name suffice for the claims). -/
structure PV where
  id : String
  name : String
deriving DecidableEq, Repr

/-- The mutable evaluation-session state: versions actually run, and the
results mapping (an insertion-ordered association list, as a Python
dict). -/
structure SessionM (α : Type) where
  prompt_versions : List PV
  results : List (String × α)
deriving DecidableEq, Repr

/-- The loop of `run_multi_prompt_evaluation`: `dirs k` is the directive
the operator gives at the `k`-th gate; `oracle v` is the outcome of
`run_single_prompt_evaluation` for version `v` (`none` = failed run).
`quit` exits the process immediately: the accumulated `all_results` are
dropped and the session keeps whatever state it had.  Only after the loop
finishes are the accumulated results assigned to `session.results`. -/
def runMultiGo (oracle : PV → Option α) (dirs : Nat → Directive) :
    List PV → Nat → List (String × α) → SessionM α →
    Option (List (String × α)) × SessionM α
  | [], _, acc, sess => (some acc, { sess with results := acc })
  | v :: vs, k, acc, sess =>
    match dirs k with
    | Directive.abort => (none, sess)
    | Directive.skip => runMultiGo oracle dirs vs (k + 1) acc sess
    | Directive.proceed =>
      let sess' := { sess with prompt_versions := sess.prompt_versions ++ [v] }
      match oracle v with
      | some r => runMultiGo oracle dirs vs (k + 1) (acc ++ [(v.id, r)]) sess'
      | none => runMultiGo oracle dirs vs (k + 1) acc sess'

/-- `run_multi_prompt_evaluation`: a failed pre-flight connectivity check
returns before any gate; otherwise the versions are processed under the
operator's directives. -/
def runMulti (vs : List PV) (dirs : Nat → Directive) (oracle : PV → Option α)
    (conn : Bool) (sess : SessionM α) :
    Option (List (String × α)) × SessionM α :=
  if conn then runMultiGo oracle dirs vs 0 [] sess else (none, sess)

/-! ## Derived definitions used in the statements -/

/-- The result of the `attempt`-numbered probe attempt, as produced inside
the retry loop. -/
def attemptOf (url : String) (envs : Nat → Method → NetOutcome) (ms k : Nat) :
    AttemptResult :=
  (validateAttempt url (envs k) ms k).1

/-- No suffix of the text matches the www pattern. -/
def noP2 : List Char → Bool
  | [] => true
  | c :: cs => (matchP2 (c :: cs)).isNone && noP2 cs

/-- A standalone scheme-form URL: it is in its entirety one match of the
scheme pattern, contains no www-form match, and the cleaning step keeps
it unchanged (no `www.` head, no strippable right edge, length and dot
filters passed). -/
def goodToken (u : List Char) : Bool :=
  (matchP1 u == some (u, [])) && noP2 u && (cleanLink u == some u)

/-! ## Deduplication lemmas -/

theorem dedupGo_nodup_and_fresh (l : List (List Char)) :
    ∀ seen, (dedupGo seen l).Nodup ∧ ∀ x ∈ dedupGo seen l, x ∉ seen := by
  induction l with
  | nil => intro seen; simp [dedupGo]
  | cons y ys ih =>
    intro seen
    by_cases hy : y ∈ seen
    · simpa [dedupGo, hy] using ih seen
    · have h := ih (y :: seen)
      refine ⟨?_, ?_⟩
      · simp only [dedupGo, hy, if_false]
        refine List.nodup_cons.2 ⟨?_, h.1⟩
        intro hmem
        exact (h.2 y hmem) (List.mem_cons_self y seen)
      · intro x hx
        simp only [dedupGo, hy, if_false, List.mem_cons] at hx
        rcases hx with rfl | hx
        · exact hy
        · intro hxs
          exact (h.2 x hx) (List.mem_cons_of_mem _ hxs)

theorem dedupF_nodup (l : List (List Char)) : (dedupF l).Nodup :=
  (dedupGo_nodup_and_fresh l []).1

theorem dedupGo_sublist (l : List (List Char)) :
    ∀ seen, (dedupGo seen l).Sublist l := by
  induction l with
  | nil => intro seen; simp [dedupGo]
  | cons y ys ih =>
    intro seen
    by_cases hy : y ∈ seen
    · simp only [dedupGo, hy, if_true]
      exact (ih seen).cons y
    · simp only [dedupGo, hy, if_false]
      exact (ih (y :: seen)).cons₂ y

theorem dedupF_sublist (l : List (List Char)) : (dedupF l).Sublist l :=
  dedupGo_sublist l []

theorem mem_dedupGo (l : List (List Char)) :
    ∀ seen x, x ∈ l → x ∉ seen → x ∈ dedupGo seen l := by
  induction l with
  | nil => intro seen x hx; simp at hx
  | cons y ys ih =>
    intro seen x hx hxs
    rcases List.mem_cons.1 hx with rfl | hx'
    · simp only [dedupGo, hxs, if_false]
      exact List.mem_cons_self _ _
    · by_cases hy : y ∈ seen
      · simp only [dedupGo, hy, if_true]
        exact ih seen x hx' hxs
      · simp only [dedupGo, hy, if_false]
        by_cases hxy : x = y
        · exact hxy ▸ List.mem_cons_self _ _
        · refine List.mem_cons_of_mem _ (ih (y :: seen) x hx' ?_)
          intro hmem
          rcases List.mem_cons.1 hmem with h | h
          · exact hxy h
          · exact hxs h

theorem mem_dedupF (l : List (List Char)) (x : List Char) (hx : x ∈ l) :
    x ∈ dedupF l :=
  mem_dedupGo l [] x hx (by simp)

theorem string_mk_injective : Function.Injective String.mk := by
  intro a b h
  injection h

/-- **C2, amended.**  For every input text the extractor returns a
duplicate-free sequence of URL candidates; the sequence is the first-seen
deduplication of the cleaned scheme-form matches (in text order) followed
by the cleaned www-form matches (in text order), so order is first-seen
within each surface form with all scheme-form candidates preceding all
www-form candidates — not first-seen across both forms together.  The
deduplicated output preserves the candidate order (it is a sublist) and
keeps every candidate at its first occurrence. -/
theorem extract_links_nodup_and_blockwise_order (t : String) :
    (extract_links t).Nodup ∧
    extractL t.data =
      dedupF ((findAll matchP1 t.data).filterMap cleanLink ++
              (findAll matchP2 t.data).filterMap cleanLink) ∧
    (extractL t.data).Sublist
      ((findAll matchP1 t.data ++ findAll matchP2 t.data).filterMap cleanLink) ∧
    ∀ x ∈ (findAll matchP1 t.data ++ findAll matchP2 t.data).filterMap cleanLink,
      x ∈ extractL t.data := by
  refine ⟨?_, ?_, ?_, ?_⟩
  · exact (dedupF_nodup _).map string_mk_injective
  · simp [extractL, List.filterMap_append]
  · exact dedupF_sublist _
  · intro x hx
    exact mem_dedupF _ x hx

/-- **C2, counterexample.**  In the text
`"www.abcdefg.com and https://zzz.example.org"` the www-form candidate
occurs first (index 0) and the scheme-form candidate later (index 20),
yet the extractor returns the scheme-derived URL first: the output is not
ordered by first occurrence in the text across both surface forms. -/
theorem extract_links_not_text_order :
    extract_links "www.abcdefg.com and https://zzz.example.org" =
      ["https://zzz.example.org", "https://www.abcdefg.com"] ∧
    indexOfSub "www.abcdefg.com".data
      "www.abcdefg.com and https://zzz.example.org".data = some 0 ∧
    indexOfSub "https://zzz.example.org".data
      "www.abcdefg.com and https://zzz.example.org".data = some 20 := by
  refine ⟨by decide, by decide, by decide⟩

/-! ## Prober lemmas -/

theorem getTier_snd (url : String) (env : Method → NetOutcome) (ms attempt : Nat)
    (le : Option String) :
    (getTier url env ms attempt le).2 = [Method.HEAD, Method.GET] := by
  unfold getTier
  cases env Method.GET with
  | ok code fu rd =>
    cases h : classifyCode Method.GET code with
    | none => simp [h]
    | some p => simp [h]
  | exn e => simp

/-- **C3, amended.**  A single probe attempt short-circuits to the
`invalid` result with reason "Invalid URL format", zero latency and no
network call exactly when the parsed URL lacks a scheme **or** lacks a
host (the source tests `not parsed.scheme or not parsed.netloc`); a URL
with a scheme but no host is short-circuited too. -/
theorem validateAttempt_malformed_iff (url : String) (env : Method → NetOutcome)
    (ms attempt : Nat) :
    validateAttempt url env ms attempt = (malformedRes url attempt, []) ↔
      (splitScheme url.data = none ∨ netlocOf url.data = []) := by
  by_cases h : ((splitScheme url.data).isNone || (netlocOf url.data).isEmpty) = true
  · constructor
    · intro _
      rcases Bool.or_eq_true_iff.1 h with h' | h'
      · exact Or.inl (Option.isNone_iff_eq_none.1 h')
      · exact Or.inr (List.isEmpty_iff.1 h')
    · intro _
      simp [validateAttempt, h]
  · constructor
    · intro heq
      exfalso
      have hsnd : (validateAttempt url env ms attempt).2 ≠ [] := by
        simp only [validateAttempt, h, Bool.false_eq_true, if_false]
        cases henv : env Method.HEAD with
        | ok code fu rd =>
          cases hc : classifyCode Method.HEAD code with
          | none => simp [hc, getTier_snd]
          | some p => simp [hc]
        | exn e => simp [getTier_snd]
      exact hsnd (by rw [heq])
    · intro hor
      exfalso
      apply h
      rcases hor with h' | h'
      · simp [h']
      · simp [h']

/-- **C3, counterexample.**  `"mailto:ab@cd.com"` parses with a scheme but
no host, yet the probe attempt short-circuits: it returns the malformed
`invalid` result with zero latency and performs no network call, even
though the network would have answered 200 — refuting the claim that a
URL with one of the two parts is not short-circuited. -/
theorem prober_shortcircuits_scheme_without_host :
    validateAttempt "mailto:ab@cd.com"
        (fun _ => NetOutcome.ok 200 "https://cd.com/" 0) 7 1 =
      (malformedRes "mailto:ab@cd.com" 1, []) ∧
    (splitScheme "mailto:ab@cd.com".data).isSome = true := by
  refine ⟨by decide, by decide⟩

theorem validateAttempt_code_inv (url : String) (env : Method → NetOutcome)
    (ms attempt c : Nat)
    (h : (validateAttempt url env ms attempt).1.status_code = some c) :
    ∃ m fu rd st err,
      (validateAttempt url env ms attempt).1 =
        responseRes url m c fu rd ms attempt st err ∧
      classifyCode m c = some (st, err) := by
  by_cases hmal : ((splitScheme url.data).isNone || (netlocOf url.data).isEmpty) = true
  · simp [validateAttempt, hmal, malformedRes] at h
  · simp only [validateAttempt, hmal, Bool.false_eq_true, if_false] at h ⊢
    cases henv : env Method.HEAD with
    | ok code fu rd =>
      cases hc : classifyCode Method.HEAD code with
      | some p =>
        simp only [henv, hc] at h ⊢
        have hcode : code = c := by
          simpa [responseRes] using h
        subst hcode
        exact ⟨Method.HEAD, fu, rd, p.1, p.2, rfl, by simpa using hc⟩
      | none =>
        simp only [henv, hc] at h ⊢
        unfold getTier at h ⊢
        cases hg : env Method.GET with
        | ok code' fu' rd' =>
          cases hcg : classifyCode Method.GET code' with
          | some q =>
            simp only [hg, hcg] at h ⊢
            have hcode : code' = c := by
              simpa [responseRes] using h
            subst hcode
            exact ⟨Method.GET, fu', rd', q.1, q.2, rfl, by simpa using hcg⟩
          | none => simp [hg, hcg, connFailedRes] at h
        | exn e => simp [hg, connFailedRes] at h
    | exn e =>
      simp only [henv] at h ⊢
      unfold getTier at h ⊢
      cases hg : env Method.GET with
      | ok code' fu' rd' =>
        cases hcg : classifyCode Method.GET code' with
        | some q =>
          simp only [hg, hcg] at h ⊢
          have hcode : code' = c := by
            simpa [responseRes] using h
          subst hcode
          exact ⟨Method.GET, fu', rd', q.1, q.2, rfl, by simpa using hcg⟩
        | none => simp [hg, hcg, connFailedRes] at h
      | exn e' => simp [hg, connFailedRes] at h

/-- **C4.**  Whenever a probe attempt records an HTTP status code `c` in
its result, the classification follows the table — `< 400` valid, `403`
warning, `429` warning, `≥ 500` warning, `404` invalid — regardless of
the recording tier, and a recorded `404` always comes from the GET
(escalation) tier, since a HEAD 404 or 403 escalates instead of
returning. -/
theorem validateAttempt_classification_table (url : String)
    (env : Method → NetOutcome) (ms attempt c : Nat)
    (h : (validateAttempt url env ms attempt).1.status_code = some c) :
    (c < 400 → (validateAttempt url env ms attempt).1.status = "valid") ∧
    (c = 403 → (validateAttempt url env ms attempt).1.status = "warning") ∧
    (c = 404 → (validateAttempt url env ms attempt).1.status = "invalid" ∧
      (validateAttempt url env ms attempt).1.method_used = some Method.GET) ∧
    (c = 429 → (validateAttempt url env ms attempt).1.status = "warning") ∧
    (500 ≤ c → (validateAttempt url env ms attempt).1.status = "warning") := by
  obtain ⟨m, fu, rd, st, err, hres, hcl⟩ :=
    validateAttempt_code_inv url env ms attempt c h
  refine ⟨?_, ?_, ?_, ?_, ?_⟩
  · intro hc
    have : st = "valid" := by
      unfold classifyCode at hcl
      simp [hc] at hcl
      exact hcl.1.symm
    rw [hres]; simpa [responseRes] using this
  · intro hc
    subst hc
    have : st = "warning" := by
      unfold classifyCode at hcl
      cases m <;> simp_all
    rw [hres]; simpa [responseRes] using this
  · intro hc
    subst hc
    have hm : m = Method.GET ∧ st = "invalid" := by
      unfold classifyCode at hcl
      cases m <;> simp_all
    rw [hres]
    exact ⟨by simpa [responseRes] using hm.2, by simp [responseRes, hm.1]⟩
  · intro hc
    subst hc
    have : st = "warning" := by
      unfold classifyCode at hcl
      cases m <;> simp_all
    rw [hres]; simpa [responseRes] using this
  · intro hc
    have h1 : ¬ c < 400 := by omega
    have h2 : c ≠ 404 := by omega
    have h3 : c ≠ 403 := by omega
    have h4 : c ≠ 429 := by omega
    have : st = "warning" := by
      unfold classifyCode at hcl
      simp [h1, h2, h3, h4, hc] at hcl
      exact hcl.1.symm
    rw [hres]; simpa [responseRes] using this

/-- Witness for C4: a network where both tiers answer 404 — the attempt
records status code 404, classifies `invalid`, and the recording tier is
GET. -/
theorem validateAttempt_classification_table_witness :
    (validateAttempt "https://example.com/x"
        (fun _ => NetOutcome.ok 404 "https://example.com/x" 0) 5 1).1.status
        = "invalid" ∧
    (validateAttempt "https://example.com/x"
        (fun _ => NetOutcome.ok 404 "https://example.com/x" 0) 5 1).1.method_used
        = some Method.GET := by
  have h := validateAttempt_classification_table "https://example.com/x"
    (fun _ => NetOutcome.ok 404 "https://example.com/x" 0) 5 1 404 (by decide)
  exact h.2.2.1 rfl

/-! ## Retry coordinator lemmas -/

theorem classifyCode_status_mem (m : Method) (c : Nat) (st : String)
    (err : Option String) (h : classifyCode m c = some (st, err)) :
    st = "valid" ∨ st = "warning" ∨ st = "invalid" := by
  unfold classifyCode at h
  split_ifs at h <;> simp_all

theorem validateAttempt_status_mem (url : String) (env : Method → NetOutcome)
    (ms attempt : Nat) :
    (validateAttempt url env ms attempt).1.status = "valid" ∨
    (validateAttempt url env ms attempt).1.status = "warning" ∨
    (validateAttempt url env ms attempt).1.status = "invalid" := by
  by_cases hmal : ((splitScheme url.data).isNone || (netlocOf url.data).isEmpty) = true
  · simp [validateAttempt, hmal, malformedRes]
  · simp only [validateAttempt, hmal, Bool.false_eq_true, if_false]
    cases henv : env Method.HEAD with
    | ok code fu rd =>
      cases hc : classifyCode Method.HEAD code with
      | some p =>
        simp only [hc]
        exact classifyCode_status_mem Method.HEAD code p.1 p.2 (by simpa using hc)
      | none =>
        simp only [hc]
        unfold getTier
        cases hg : env Method.GET with
        | ok code' fu' rd' =>
          cases hcg : classifyCode Method.GET code' with
          | some q =>
            simp only [hcg]
            exact classifyCode_status_mem Method.GET code' q.1 q.2 (by simpa using hcg)
          | none => simp [hcg, connFailedRes]
        | exn e => simp [connFailedRes]
    | exn e =>
      unfold getTier
      cases hg : env Method.GET with
      | ok code' fu' rd' =>
        cases hcg : classifyCode Method.GET code' with
        | some q =>
          simp only [hcg]
          exact classifyCode_status_mem Method.GET code' q.1 q.2 (by simpa using hcg)
        | none => simp [hcg, connFailedRes]
      | exn e' => simp [connFailedRes]

theorem rank_le_two (s : String) : rank s ≤ 2 := by
  unfold rank; split_ifs <;> omega

theorem rank_lt_two_of_ne_valid (s : String) (h : s ≠ "valid") : rank s < 2 := by
  unfold rank
  split_ifs with h1 h2
  · exact absurd h1 h
  · omega
  · omega

theorem rank_valid : rank "valid" = 2 := by decide

theorem vsGo_spec (url : String) (envs : Nat → Method → NetOutcome) (ms : Nat) :
    ∀ rem a best, 1 ≤ a →
    (∀ j, 1 ≤ j → j < a → (attemptOf url envs ms j).status ≠ "valid") →
    ((a = 1 ∧ best = none) ∨
      (∃ i, 1 ≤ i ∧ i < a ∧ best = some (attemptOf url envs ms i) ∧
        (∀ j, 1 ≤ j → j < a →
          rank (attemptOf url envs ms j).status ≤ rank (attemptOf url envs ms i).status) ∧
        (∀ j, 1 ≤ j → j < i →
          rank (attemptOf url envs ms j).status < rank (attemptOf url envs ms i).status))) →
    ((∃ k, a ≤ k ∧ k ≤ a + rem - 1 ∧
        vsGo url envs ms a rem best = (some (attemptOf url envs ms k), k) ∧
        (attemptOf url envs ms k).status = "valid" ∧
        (∀ j, 1 ≤ j → j < k → (attemptOf url envs ms j).status ≠ "valid")) ∨
      ((vsGo url envs ms a rem best).2 = a + rem - 1 ∧
        (∀ j, 1 ≤ j → j ≤ a + rem - 1 → (attemptOf url envs ms j).status ≠ "valid") ∧
        ((a + rem - 1 = 0 ∧ (vsGo url envs ms a rem best).1 = none) ∨
          (∃ i, 1 ≤ i ∧ i ≤ a + rem - 1 ∧
            (vsGo url envs ms a rem best).1 = some (attemptOf url envs ms i) ∧
            (∀ j, 1 ≤ j → j ≤ a + rem - 1 →
              rank (attemptOf url envs ms j).status ≤ rank (attemptOf url envs ms i).status) ∧
            (∀ j, 1 ≤ j → j < i →
              rank (attemptOf url envs ms j).status < rank (attemptOf url envs ms i).status))))) := by
  intro rem
  induction rem with
  | zero =>
    intro a best h1 hnv hinv
    right
    refine ⟨rfl, ?_, ?_⟩
    · intro j hj1 hj2
      exact hnv j hj1 (by omega)
    · rcases hinv with ⟨ha, hb⟩ | ⟨i, hi1, hi2, hb, hle, hlt⟩
      · left
        exact ⟨by omega, by simp [vsGo, hb]⟩
      · right
        refine ⟨i, hi1, by omega, by simp [vsGo, hb], ?_, hlt⟩
        intro j hj1 hj2
        exact hle j hj1 (by omega)
  | succ rem ih =>
    intro a best h1 hnv hinv
    have hAa : (validateAttempt url (envs a) ms a).1 = attemptOf url envs ms a := rfl
    by_cases hv : (attemptOf url envs ms a).status = "valid"
    · left
      refine ⟨a, le_refl a, by omega, ?_, hv, hnv⟩
      show vsGo url envs ms a (rem + 1) best = _
      simp only [vsGo]
      rw [hAa, if_pos hv]
    · have hnv' : ∀ j, 1 ≤ j → j < a + 1 →
          (attemptOf url envs ms j).status ≠ "valid" := by
        intro j hj1 hj2
        rcases Nat.lt_succ_iff_lt_or_eq.1 hj2 with h | h
        · exact hnv j hj1 h
        · exact h ▸ hv
      have harith : a + (rem + 1) - 1 = (a + 1) + rem - 1 := by omega
      rcases hinv with ⟨ha, hb⟩ | ⟨i, hi1, hi2, hb, hle, hlt⟩
      · -- first attempt: best was `none`, becomes the attempt-`a` result
        subst ha
        subst hb
        have hstep : vsGo url envs ms 1 (rem + 1) none =
            vsGo url envs ms 2 rem (some (attemptOf url envs ms 1)) := by
          simp only [vsGo]
          rw [hAa, if_neg hv]
        have hinv' : ((2 = 1 ∧ (some (attemptOf url envs ms 1) :
              Option AttemptResult) = none) ∨
            (∃ i, 1 ≤ i ∧ i < 2 ∧
              (some (attemptOf url envs ms 1) : Option AttemptResult) =
                some (attemptOf url envs ms i) ∧
              (∀ j, 1 ≤ j → j < 2 →
                rank (attemptOf url envs ms j).status ≤
                  rank (attemptOf url envs ms i).status) ∧
              (∀ j, 1 ≤ j → j < i →
                rank (attemptOf url envs ms j).status <
                  rank (attemptOf url envs ms i).status))) := by
          right
          refine ⟨1, le_refl 1, by omega, rfl, ?_, by omega⟩
          intro j hj1 hj2
          have : j = 1 := by omega
          subst this
          exact le_refl _
        have hrec := ih 2 (some (attemptOf url envs ms 1)) (by omega) hnv' hinv'
        rw [hstep, harith]
        rcases hrec with ⟨k, hk1, hk2, hk3, hk4, hk5⟩ | ⟨hm, hnvall, hrest⟩
        · exact Or.inl ⟨k, by omega, hk2, hk3, hk4, hk5⟩
        · exact Or.inr ⟨hm, hnvall, hrest⟩
      · -- later attempt: best was the attempt-`i` result
        subst hb
        by_cases hrep :
            ((attemptOf url envs ms a).status = "warning" ∧
              (attemptOf url envs ms i).status = "invalid")
        · have hstep : vsGo url envs ms a (rem + 1)
              (some (attemptOf url envs ms i)) =
              vsGo url envs ms (a + 1) rem (some (attemptOf url envs ms a)) := by
            simp only [vsGo]
            rw [hAa, if_neg hv]
            congr 1
            simp [hrep.1, hrep.2]
          have hinv' : ((a + 1 = 1 ∧ (some (attemptOf url envs ms a) :
                Option AttemptResult) = none) ∨
              (∃ i', 1 ≤ i' ∧ i' < a + 1 ∧
                (some (attemptOf url envs ms a) : Option AttemptResult) =
                  some (attemptOf url envs ms i') ∧
                (∀ j, 1 ≤ j → j < a + 1 →
                  rank (attemptOf url envs ms j).status ≤
                    rank (attemptOf url envs ms i').status) ∧
                (∀ j, 1 ≤ j → j < i' →
                  rank (attemptOf url envs ms j).status <
                    rank (attemptOf url envs ms i').status))) := by
            right
            refine ⟨a, h1, by omega, rfl, ?_, ?_⟩
            · intro j hj1 hj2
              rcases Nat.lt_succ_iff_lt_or_eq.1 hj2 with h | h
              · have := hle j hj1 h
                rw [hrep.2] at this
                rw [hrep.1]
                have h0 : rank "invalid" = 0 := by decide
                have hw1 : rank "warning" = 1 := by decide
                rw [h0] at this
                rw [hw1]
                omega
              · subst h
                exact le_refl _
            · intro j hj1 hj2
              have := hle j hj1 (by omega)
              rw [hrep.2] at this
              rw [hrep.1]
              have h0 : rank "invalid" = 0 := by decide
              have hw1 : rank "warning" = 1 := by decide
              rw [h0] at this
              rw [hw1]
              omega
          have hrec := ih (a + 1) (some (attemptOf url envs ms a))
            (by omega) hnv' hinv'
          rw [hstep, harith]
          rcases hrec with ⟨k, hk1, hk2, hk3, hk4, hk5⟩ | ⟨hm, hnvall, hrest⟩
          · exact Or.inl ⟨k, by omega, hk2, hk3, hk4, hk5⟩
          · exact Or.inr ⟨hm, hnvall, hrest⟩
        · have hcond : ((attemptOf url envs ms a).status = "warning" &&
              (attemptOf url envs ms i).status = "invalid") = false := by
            cases hb : (((attemptOf url envs ms a).status = "warning" : Bool) &&
                ((attemptOf url envs ms i).status = "invalid" : Bool)) with
            | false => rfl
            | true =>
              exfalso
              apply hrep
              simp only [Bool.and_eq_true, decide_eq_true_eq] at hb
              exact hb
          have hstep : vsGo url envs ms a (rem + 1)
              (some (attemptOf url envs ms i)) =
              vsGo url envs ms (a + 1) rem (some (attemptOf url envs ms i)) := by
            simp only [vsGo]
            rw [hAa, if_neg hv]
            congr 1
            rw [hcond]
            simp
          have hinv' : ((a + 1 = 1 ∧ (some (attemptOf url envs ms i) :
                Option AttemptResult) = none) ∨
              (∃ i', 1 ≤ i' ∧ i' < a + 1 ∧
                (some (attemptOf url envs ms i) : Option AttemptResult) =
                  some (attemptOf url envs ms i') ∧
                (∀ j, 1 ≤ j → j < a + 1 →
                  rank (attemptOf url envs ms j).status ≤
                    rank (attemptOf url envs ms i').status) ∧
                (∀ j, 1 ≤ j → j < i' →
                  rank (attemptOf url envs ms j).status <
                    rank (attemptOf url envs ms i').status))) := by
            right
            refine ⟨i, hi1, by omega, rfl, ?_, hlt⟩
            intro j hj1 hj2
            rcases Nat.lt_succ_iff_lt_or_eq.1 hj2 with h | h
            · exact hle j hj1 h
            · subst h
              have hith : (attemptOf url envs ms i).status ≠ "valid" :=
                hnv i hi1 hi2
              have hjmem : (attemptOf url envs ms j).status = "valid" ∨
                  (attemptOf url envs ms j).status = "warning" ∨
                  (attemptOf url envs ms j).status = "invalid" :=
                validateAttempt_status_mem url (envs j) ms j
              have himem : (attemptOf url envs ms i).status = "valid" ∨
                  (attemptOf url envs ms i).status = "warning" ∨
                  (attemptOf url envs ms i).status = "invalid" :=
                validateAttempt_status_mem url (envs i) ms i
              rcases hjmem with hj | hj | hj
              · exact absurd hj hv
              · rcases himem with hi | hi | hi
                · exact absurd hi hith
                · rw [hj, hi]
                · exact absurd ⟨hj, hi⟩ hrep
              · rw [hj]
                simp [rank]
          have hrec := ih (a + 1) (some (attemptOf url envs ms i))
            (by omega) hnv' hinv'
          rw [hstep, harith]
          rcases hrec with ⟨k, hk1, hk2, hk3, hk4, hk5⟩ | ⟨hm, hnvall, hrest⟩
          · exact Or.inl ⟨k, by omega, hk2, hk3, hk4, hk5⟩
          · exact Or.inr ⟨hm, hnvall, hrest⟩

/-- **C5.**  The retry coordinator, run with at least one permitted
attempt: it performs between 1 and `n` attempts, stops before exhausting
the budget only when the last performed attempt classified `valid` (and
no earlier attempt did), and returns `some` result — the result of the
earliest performed attempt whose classification rank
(valid 2 > warning 1 > invalid 0) is maximal among all performed
attempts.  In particular a `warning` displaces a held `invalid`, an
`invalid` never displaces a held `warning`, and the first `valid`
short-circuits. -/
theorem validate_single_link_selection (url : String)
    (envs : Nat → Method → NetOutcome) (ms n : Nat) (hn : 1 ≤ n) :
    1 ≤ (validateSingle url envs ms n).2 ∧
    (validateSingle url envs ms n).2 ≤ n ∧
    (∀ j, 1 ≤ j → j < (validateSingle url envs ms n).2 →
      (attemptOf url envs ms j).status ≠ "valid") ∧
    ((validateSingle url envs ms n).2 < n →
      (attemptOf url envs ms (validateSingle url envs ms n).2).status = "valid") ∧
    ∃ i, 1 ≤ i ∧ i ≤ (validateSingle url envs ms n).2 ∧
      (validateSingle url envs ms n).1 = some (attemptOf url envs ms i) ∧
      (∀ j, 1 ≤ j → j ≤ (validateSingle url envs ms n).2 →
        rank (attemptOf url envs ms j).status ≤ rank (attemptOf url envs ms i).status) ∧
      (∀ j, 1 ≤ j → j < i →
        rank (attemptOf url envs ms j).status < rank (attemptOf url envs ms i).status) := by
  have h := vsGo_spec url envs ms n 1 none (le_refl 1)
    (by intro j hj1 hj2; omega) (Or.inl ⟨rfl, rfl⟩)
  have hn1 : 1 + n - 1 = n := by omega
  rw [hn1] at h
  rcases h with ⟨k, hk1, hk2, hk3, hk4, hk5⟩ | ⟨hm, hnvall, hrest⟩
  · have hvs : validateSingle url envs ms n =
        (some (attemptOf url envs ms k), k) := hk3
    rw [hvs]
    refine ⟨hk1, hk2, hk5, fun _ => hk4, k, hk1, le_refl k, rfl, ?_, ?_⟩
    · intro j hj1 hj2
      rw [hk4, rank_valid]
      exact rank_le_two _
    · intro j hj1 hj2
      rw [hk4, rank_valid]
      exact rank_lt_two_of_ne_valid _ (hk5 j hj1 hj2)
  · have hvs2 : (validateSingle url envs ms n).2 = n := hm
    rcases hrest with ⟨hz, _⟩ | ⟨i, hi1, hi2, hi3, hi4, hi5⟩
    · exfalso; omega
    · rw [hvs2]
      refine ⟨hn, le_refl n, ?_, ?_, i, hi1, hi2, hi3, hi4, hi5⟩
      · intro j hj1 hj2
        exact hnvall j hj1 (by omega)
      · intro hlt
        exfalso; omega

/-- Witness for C5: attempt 1 raises a connection error (`invalid`),
attempt 2 is rate-limited (429, `warning`); with budget 2 the coordinator
performs both attempts and keeps the warning. -/
theorem validate_single_link_selection_witness :
    1 ≤ (validateSingle "https://example.com/a"
        (fun k _ => if k = 1 then NetOutcome.exn "refused"
                    else NetOutcome.ok 429 "https://example.com/a" 0) 5 2).2 ∧
    (validateSingle "https://example.com/a"
        (fun k _ => if k = 1 then NetOutcome.exn "refused"
                    else NetOutcome.ok 429 "https://example.com/a" 0) 5 2).2 ≤ 2 ∧
    (∀ j, 1 ≤ j → j < (validateSingle "https://example.com/a"
        (fun k _ => if k = 1 then NetOutcome.exn "refused"
                    else NetOutcome.ok 429 "https://example.com/a" 0) 5 2).2 →
      (attemptOf "https://example.com/a"
        (fun k _ => if k = 1 then NetOutcome.exn "refused"
                    else NetOutcome.ok 429 "https://example.com/a" 0) 5 j).status ≠ "valid") ∧
    ((validateSingle "https://example.com/a"
        (fun k _ => if k = 1 then NetOutcome.exn "refused"
                    else NetOutcome.ok 429 "https://example.com/a" 0) 5 2).2 < 2 →
      (attemptOf "https://example.com/a"
        (fun k _ => if k = 1 then NetOutcome.exn "refused"
                    else NetOutcome.ok 429 "https://example.com/a" 0) 5
        (validateSingle "https://example.com/a"
          (fun k _ => if k = 1 then NetOutcome.exn "refused"
                      else NetOutcome.ok 429 "https://example.com/a" 0) 5 2).2).status
        = "valid") ∧
    ∃ i, 1 ≤ i ∧ i ≤ (validateSingle "https://example.com/a"
        (fun k _ => if k = 1 then NetOutcome.exn "refused"
                    else NetOutcome.ok 429 "https://example.com/a" 0) 5 2).2 ∧
      (validateSingle "https://example.com/a"
        (fun k _ => if k = 1 then NetOutcome.exn "refused"
                    else NetOutcome.ok 429 "https://example.com/a" 0) 5 2).1 =
        some (attemptOf "https://example.com/a"
          (fun k _ => if k = 1 then NetOutcome.exn "refused"
                      else NetOutcome.ok 429 "https://example.com/a" 0) 5 i) ∧
      (∀ j, 1 ≤ j → j ≤ (validateSingle "https://example.com/a"
          (fun k _ => if k = 1 then NetOutcome.exn "refused"
                      else NetOutcome.ok 429 "https://example.com/a" 0) 5 2).2 →
        rank (attemptOf "https://example.com/a"
          (fun k _ => if k = 1 then NetOutcome.exn "refused"
                      else NetOutcome.ok 429 "https://example.com/a" 0) 5 j).status ≤
          rank (attemptOf "https://example.com/a"
            (fun k _ => if k = 1 then NetOutcome.exn "refused"
                        else NetOutcome.ok 429 "https://example.com/a" 0) 5 i).status) ∧
      (∀ j, 1 ≤ j → j < i →
        rank (attemptOf "https://example.com/a"
          (fun k _ => if k = 1 then NetOutcome.exn "refused"
                      else NetOutcome.ok 429 "https://example.com/a" 0) 5 j).status <
          rank (attemptOf "https://example.com/a"
            (fun k _ => if k = 1 then NetOutcome.exn "refused"
                        else NetOutcome.ok 429 "https://example.com/a" 0) 5 i).status) :=
  validate_single_link_selection "https://example.com/a"
    (fun k _ => if k = 1 then NetOutcome.exn "refused"
                else NetOutcome.ok 429 "https://example.com/a" 0) 5 2 (by decide)

/-! ## Pool and aggregation lemmas -/

theorem validate_links_map (urls : List String) (exc : String → Option String)
    (env : String → Nat → Method → NetOutcome) (ms maxR : Nat) :
    (validate_links urls exc env ms maxR).1 =
      urls.map (fun u => convRes u exc env ms maxR) := by
  by_cases h : urls.isEmpty
  · have he : urls = [] := List.isEmpty_iff.1 h
    subst he
    simp [validate_links]
  · simp [validate_links, h]

theorem validate_links_length (urls : List String) (exc : String → Option String)
    (env : String → Nat → Method → NetOutcome) (ms maxR : Nat) :
    (validate_links urls exc env ms maxR).1.length = urls.length := by
  rw [validate_links_map]
  exact List.length_map _ _

theorem vsGo_status_mem (url : String) (envs : Nat → Method → NetOutcome)
    (ms : Nat) :
    ∀ rem a best r,
    (∀ b, best = some b →
      (b.status = "valid" ∨ b.status = "warning" ∨ b.status = "invalid")) →
    (vsGo url envs ms a rem best).1 = some r →
    (r.status = "valid" ∨ r.status = "warning" ∨ r.status = "invalid") := by
  intro rem
  induction rem with
  | zero =>
    intro a best r hbest hr
    simp only [vsGo] at hr
    exact hbest r hr
  | succ rem ih =>
    intro a best r hbest hr
    simp only [vsGo] at hr
    by_cases hv : (validateAttempt url (envs a) ms a).1.status = "valid"
    · rw [if_pos hv] at hr
      have : (validateAttempt url (envs a) ms a).1 = r := by
        simpa using hr
      rw [← this]
      exact validateAttempt_status_mem url (envs a) ms a
    · rw [if_neg hv] at hr
      refine ih (a + 1) _ r ?_ hr
      intro b hb
      cases best with
      | none =>
        simp only at hb
        have : (validateAttempt url (envs a) ms a).1 = b := by
          simpa using hb
        rw [← this]
        exact validateAttempt_status_mem url (envs a) ms a
      | some b0 =>
        simp only at hb
        by_cases hc : ((validateAttempt url (envs a) ms a).1.status = "warning" &&
            b0.status = "invalid") = true
        · rw [if_pos hc] at hb
          have : (validateAttempt url (envs a) ms a).1 = b := by
            simpa using hb
          rw [← this]
          exact validateAttempt_status_mem url (envs a) ms a
        · rw [if_neg hc] at hb
          have : b0 = b := by simpa using hb
          rw [← this]
          exact hbest b0 rfl

theorem convRes_status_mem (u : String) (exc : String → Option String)
    (env : String → Nat → Method → NetOutcome) (ms maxR : Nat) :
    (convRes u exc env ms maxR).status = "valid" ∨
    (convRes u exc env ms maxR).status = "warning" ∨
    (convRes u exc env ms maxR).status = "invalid" := by
  unfold convRes
  cases hx : exc u with
  | some e => simp
  | none =>
    cases hv : (validateSingle u (env u) ms maxR).1 with
    | none => simp [noneRes]
    | some r =>
      simp only
      exact vsGo_status_mem u (env u) ms maxR 1 none r (by intro b hb; cases hb) hv

theorem count_three (rs : List AttemptResult)
    (h : ∀ r ∈ rs, r.status = "valid" ∨ r.status = "warning" ∨ r.status = "invalid") :
    rs.length = countStatus rs "valid" + countStatus rs "warning" +
      countStatus rs "invalid" := by
  induction rs with
  | nil => simp [countStatus]
  | cons r rest ih =>
    have hrest := ih (fun x hx => h x (List.mem_cons_of_mem r hx))
    have hr := h r (List.mem_cons_self r rest)
    rcases hr with hr | hr | hr <;>
      simp [countStatus, List.filter, hr, List.length_cons] at hrest ⊢ <;>
      omega

/-- **C6.**  The validation pool returns exactly one result per input URL
(`length`-preserving, one independent conversion per URL); an empty batch
returns the empty result set with zero submitted probe tasks; and an
exception while probing one URL is converted to an `invalid` result
carrying the exception text with attempt number 1, without affecting the
other URLs' results. -/
theorem validate_links_pool_contract (urls : List String)
    (exc : String → Option String) (env : String → Nat → Method → NetOutcome)
    (ms maxR : Nat) :
    (validate_links urls exc env ms maxR).1.length = urls.length ∧
    (urls = [] → validate_links urls exc env ms maxR = ([], 0)) ∧
    (urls ≠ [] → (validate_links urls exc env ms maxR).2 = urls.length) ∧
    (validate_links urls exc env ms maxR).1 =
      urls.map (fun u => convRes u exc env ms maxR) ∧
    (∀ u e, u ∈ urls → exc u = some e →
      (⟨u, "invalid", none, some ("Validation failed: " ++ e), 0, u, 0, none, 1⟩ :
        AttemptResult) ∈ (validate_links urls exc env ms maxR).1) := by
  refine ⟨validate_links_length urls exc env ms maxR, ?_, ?_, validate_links_map urls exc env ms maxR, ?_⟩
  · intro h
    subst h
    simp [validate_links]
  · intro h
    have : urls.isEmpty = false := by
      cases urls with
      | nil => exact absurd rfl h
      | cons a l => rfl
    simp [validate_links, this]
  · intro u e hu he
    rw [validate_links_map]
    refine List.mem_map.2 ⟨u, hu, ?_⟩
    simp [convRes, he]

/-- Witness for C6: a one-URL batch whose probe raises `boom` yields
exactly one result, the converted `invalid` result with the exception
text and attempt number 1. -/
theorem validate_links_pool_contract_witness :
    (validate_links ["https://a.example.com"] (fun _ => some "boom")
        (fun _ _ _ => NetOutcome.exn "x") 0 2).1.length = 1 ∧
    (⟨"https://a.example.com", "invalid", none,
        some ("Validation failed: " ++ "boom"), 0, "https://a.example.com", 0,
        none, 1⟩ : AttemptResult) ∈
      (validate_links ["https://a.example.com"] (fun _ => some "boom")
        (fun _ _ _ => NetOutcome.exn "x") 0 2).1 := by
  have h := validate_links_pool_contract ["https://a.example.com"]
    (fun _ => some "boom") (fun _ _ _ => NetOutcome.exn "x") 0 2
  exact ⟨h.1, h.2.2.2.2 "https://a.example.com" "boom" (by simp) rfl⟩

theorem summary_invariant_step (exc : String → Option String)
    (env : String → Nat → Method → NetOutcome) (ms : Nat) (acc : LinkSummary)
    (resp : RespRec)
    (h : acc.total_links = acc.valid_links + acc.warning_links + acc.invalid_links) :
    (stepSummary exc env ms acc resp).total_links =
      (stepSummary exc env ms acc resp).valid_links +
      (stepSummary exc env ms acc resp).warning_links +
      (stepSummary exc env ms acc resp).invalid_links := by
  unfold stepSummary
  simp only
  have hlen : (extract_links resp.text).length =
      ((validate_links (extract_links resp.text) exc env ms 2).1).length :=
    (validate_links_length _ _ _ _ _).symm
  have hmem : ∀ r ∈ (validate_links (extract_links resp.text) exc env ms 2).1,
      r.status = "valid" ∨ r.status = "warning" ∨ r.status = "invalid" := by
    intro r hr
    rw [validate_links_map] at hr
    obtain ⟨u, _, rfl⟩ := List.mem_map.1 hr
    exact convRes_status_mem u exc env ms 2
  have hcount := count_three _ hmem
  omega

/-- **C8.**  For every list of responses (and any network/exception
behaviour), the aggregated per-prompt link summary satisfies
`total_links = valid_links + warning_links + invalid_links`: the total
counts extracted links, the parts count validation results, and the pool
returns exactly one result per extracted link, each classified by one of
the three statuses. -/
theorem per_prompt_total_eq_sum (responses : List RespRec)
    (exc : String → Option String) (env : String → Nat → Method → NetOutcome)
    (ms : Nat) :
    (runSingleSummary responses exc env ms).1.total_links =
      (runSingleSummary responses exc env ms).1.valid_links +
      (runSingleSummary responses exc env ms).1.warning_links +
      (runSingleSummary responses exc env ms).1.invalid_links := by
  unfold runSingleSummary
  simp only
  have hgen : ∀ (rs : List RespRec) (acc : LinkSummary),
      acc.total_links = acc.valid_links + acc.warning_links + acc.invalid_links →
      (rs.foldl (stepSummary exc env ms) acc).total_links =
        (rs.foldl (stepSummary exc env ms) acc).valid_links +
        (rs.foldl (stepSummary exc env ms) acc).warning_links +
        (rs.foldl (stepSummary exc env ms) acc).invalid_links := by
    intro rs
    induction rs with
    | nil => intro acc h; simpa using h
    | cons r rest ih =>
      intro acc h
      simp only [List.foldl_cons]
      exact ih _ (summary_invariant_step exc env ms acc r h)
  exact hgen responses ⟨0, 0, 0, 0, 0⟩ rfl

/-- **C10.**  Per-prompt aggregation is total even for a version with no
responses: the average response latency of an empty response list is
defined and equals 0 (the division is guarded by the emptiness test). -/
theorem avg_latency_empty_is_zero (exc : String → Option String)
    (env : String → Nat → Method → NetOutcome) (ms : Nat) :
    (runSingleSummary [] exc env ms).2 = 0 := by
  simp [runSingleSummary]

/-! ## Comparison summary lemmas -/

theorem linkRate_nonneg (p : PromptStats) : 0 ≤ linkRate p := by
  unfold linkRate
  split_ifs with h
  · norm_num
  · have ht : 0 < (p.total_links : ℚ) := by
      exact_mod_cast Nat.pos_of_ne_zero h
    positivity

theorem bestLinksGo_spec : ∀ (ps : List PromptStats) (bs : ℚ) (bn : Option String),
    (bestLinksGo ps bs bn = bn ∧ ∀ q ∈ ps, linkRate q ≤ bs) ∨
    (∃ l₁ p l₂, ps = l₁ ++ p :: l₂ ∧
      bestLinksGo ps bs bn = some p.name ∧
      bs < linkRate p ∧
      (∀ q ∈ l₁, linkRate q < linkRate p) ∧
      (∀ q ∈ l₂, linkRate q ≤ linkRate p)) := by
  intro ps
  induction ps with
  | nil =>
    intro bs bn
    left
    exact ⟨rfl, by simp⟩
  | cons p rest ih =>
    intro bs bn
    by_cases h : bs < linkRate p
    · have hstep : bestLinksGo (p :: rest) bs bn =
          bestLinksGo rest (linkRate p) (some p.name) := by
        simp [bestLinksGo, h]
      rcases ih (linkRate p) (some p.name) with ⟨heq, hall⟩ | ⟨l₁, p', l₂, heq, hres, hgt, hl1, hl2⟩
      · right
        refine ⟨[], p, rest, by simp, ?_, h, by simp, hall⟩
        rw [hstep, heq]
      · right
        refine ⟨p :: l₁, p', l₂, by rw [heq]; simp, ?_, lt_trans h hgt, ?_, hl2⟩
        · rw [hstep, hres]
        · intro q hq
          rcases List.mem_cons.1 hq with rfl | hq'
          · exact hgt
          · exact hl1 q hq'
    · have hstep : bestLinksGo (p :: rest) bs bn = bestLinksGo rest bs bn := by
        simp [bestLinksGo, h]
      rcases ih bs bn with ⟨heq, hall⟩ | ⟨l₁, p', l₂, heq, hres, hgt, hl1, hl2⟩
      · left
        refine ⟨by rw [hstep, heq], ?_⟩
        intro q hq
        rcases List.mem_cons.1 hq with rfl | hq'
        · exact le_of_not_lt h
        · exact hall q hq'
      · right
        refine ⟨p :: l₁, p', l₂, by rw [heq]; simp, ?_, hgt, ?_, hl2⟩
        · rw [hstep, hres]
        · intro q hq
          rcases List.mem_cons.1 hq with rfl | hq'
          · exact lt_of_le_of_lt (le_of_not_lt h) hgt
          · exact hl1 q hq'

/-- **C7.**  On a nonempty, evaluation-ordered results list, the
comparison summary picks as best-for-links the (unique first) version
whose link success rate strictly exceeds that of every earlier version
and is at least that of every later one — highest
`(valid+warning)/total` rate with ties resolved in favour of the
earliest-evaluated version — and a version with a zero link total is
rated 100%. -/
theorem comparison_best_links (rs : List PromptStats) (hne : rs ≠ []) :
    (∃ l₁ p l₂, rs = l₁ ++ p :: l₂ ∧
      bestPromptForLinks rs = some p.name ∧
      (∀ q ∈ l₁, linkRate q < linkRate p) ∧
      (∀ q ∈ rs, linkRate q ≤ linkRate p)) ∧
    (∀ p : PromptStats, p.total_links = 0 → linkRate p = 100) := by
  constructor
  · rcases bestLinksGo_spec rs (-1) none with ⟨_, hall⟩ | ⟨l₁, p, l₂, heq, hres, _, hl1, hl2⟩
    · exfalso
      cases rs with
      | nil => exact hne rfl
      | cons q rest =>
        have h1 := hall q (List.mem_cons_self q rest)
        have h2 := linkRate_nonneg q
        linarith
    · refine ⟨l₁, p, l₂, heq, hres, hl1, ?_⟩
      intro q hq
      rw [heq] at hq
      rcases List.mem_append.1 hq with hq' | hq'
      · exact le_of_lt (hl1 q hq')
      · rcases List.mem_cons.1 hq' with rfl | hq''
        · exact le_refl _
        · exact hl2 q hq''
  · intro p hp
    unfold linkRate
    rw [if_pos hp]

/-- Witness for C7: two versions with equal (100%) link success rates —
the earliest-evaluated one is selected. -/
theorem comparison_best_links_witness :
    (∃ l₁ p l₂,
      ([⟨"A", 2, 1, 1, 0, 10⟩, ⟨"B", 2, 1, 1, 0, 5⟩] : List PromptStats) =
        l₁ ++ p :: l₂ ∧
      bestPromptForLinks
        [⟨"A", 2, 1, 1, 0, 10⟩, ⟨"B", 2, 1, 1, 0, 5⟩] = some p.name ∧
      (∀ q ∈ l₁, linkRate q < linkRate p) ∧
      (∀ q ∈ ([⟨"A", 2, 1, 1, 0, 10⟩, ⟨"B", 2, 1, 1, 0, 5⟩] : List PromptStats),
        linkRate q ≤ linkRate p)) ∧
    (∀ p : PromptStats, p.total_links = 0 → linkRate p = 100) :=
  comparison_best_links [⟨"A", 2, 1, 1, 0, 10⟩, ⟨"B", 2, 1, 1, 0, 5⟩] (by simp)

/-! ## Orchestrator lemmas -/

theorem runMultiGo_none_results (oracle : PV → Option α) (dirs : Nat → Directive) :
    ∀ (vs : List PV) (k : Nat) (acc : List (String × α)) (sess : SessionM α),
    (runMultiGo oracle dirs vs k acc sess).1 = none →
    (runMultiGo oracle dirs vs k acc sess).2.results = sess.results := by
  intro vs
  induction vs with
  | nil =>
    intro k acc sess h
    simp [runMultiGo] at h
  | cons v vs ih =>
    intro k acc sess h
    cases hd : dirs k with
    | abort => simp [runMultiGo, hd]
    | skip =>
      simp only [runMultiGo, hd] at h ⊢
      exact ih (k + 1) acc sess h
    | proceed =>
      cases ho : oracle v with
      | some r =>
        simp only [runMultiGo, hd, ho] at h ⊢
        exact ih (k + 1) (acc ++ [(v.id, r)])
          { sess with prompt_versions := sess.prompt_versions ++ [v] } h
      | none =>
        simp only [runMultiGo, hd, ho] at h ⊢
        exact ih (k + 1) acc
          { sess with prompt_versions := sess.prompt_versions ++ [v] } h

/-- **C1, amended.**  An operator abort (`quit`, i.e. `sys.exit(0)` at the
gate) terminates the run immediately, but the per-prompt evaluations
recorded for previously completed versions are **not** preserved in the
session's results: whenever the run ends without completing the loop
(abort or failed pre-flight), the session's results mapping is exactly
what it was before the run — the accumulated results are assigned to the
session only after all versions are processed, so an abort discards every
already-recorded version from the session's results. -/
theorem abort_leaves_session_results_untouched {α : Type} (vs : List PV)
    (dirs : Nat → Directive) (oracle : PV → Option α) (conn : Bool)
    (sess : SessionM α)
    (h : (runMulti vs dirs oracle conn sess).1 = none) :
    (runMulti vs dirs oracle conn sess).2.results = sess.results := by
  unfold runMulti at h ⊢
  by_cases hc : conn = true
  · rw [if_pos hc] at h ⊢
    exact runMultiGo_none_results oracle dirs vs 0 [] sess h
  · rw [if_neg hc] at h ⊢

/-- Witness for C1 (amended): aborting at the very first gate leaves the
session's pre-existing results mapping intact. -/
theorem abort_leaves_session_results_untouched_witness :
    (runMulti [⟨"p", "n"⟩] (fun _ => Directive.abort)
        (fun _ => (some 3 : Option Nat)) true ⟨[], [("old", 1)]⟩).2.results =
      [("old", 1)] :=
  abort_leaves_session_results_untouched [⟨"p", "n"⟩] (fun _ => Directive.abort)
    (fun _ => (some 3 : Option Nat)) true ⟨[], [("old", 1)]⟩ (by decide)

/-- **C1, counterexample.**  Two versions, the first completed and
recorded (as the all-proceed run shows), then an abort at the second
gate: the run terminates with the session's results mapping still empty —
the recorded evaluation of `prompt_v1` is not preserved in the session's
results. -/
theorem abort_discards_recorded_versions :
    (runMulti [⟨"prompt_v1", "Baseline"⟩, ⟨"prompt_v2", "Enhanced"⟩]
        (fun k => if k = 0 then Directive.proceed else Directive.abort)
        (fun _ => (some 7 : Option Nat)) true ⟨[], []⟩).1 = none ∧
    (runMulti [⟨"prompt_v1", "Baseline"⟩, ⟨"prompt_v2", "Enhanced"⟩]
        (fun k => if k = 0 then Directive.proceed else Directive.abort)
        (fun _ => (some 7 : Option Nat)) true ⟨[], []⟩).2.results = [] ∧
    (runMulti [⟨"prompt_v1", "Baseline"⟩, ⟨"prompt_v2", "Enhanced"⟩]
        (fun _ => Directive.proceed)
        (fun _ => (some 7 : Option Nat)) true ⟨[], []⟩).2.results =
      [("prompt_v1", 7), ("prompt_v2", 7)] := by
  refine ⟨by decide, by decide, by decide⟩

/-- Witness for C2 (amended): on the spec's own example text the output is
duplicate-free and contains the cleaned candidate. -/
theorem extract_links_nodup_and_blockwise_order_witness :
    (extract_links "See https://example.com.").Nodup ∧
    "https://example.com".data ∈ extractL "See https://example.com.".data :=
  ⟨(extract_links_nodup_and_blockwise_order "See https://example.com.").1,
   (extract_links_nodup_and_blockwise_order "See https://example.com.").2.2.2
     "https://example.com".data (by decide)⟩

/-! ## Scanner lemmas for re-extraction -/


/-! ## Scanner lemmas for re-extraction -/

theorem scanHost1_nil : scanHost1 [] = ([], []) := rfl

theorem scanHost1_cons_host (c : Char) (cs : List Char) (h : isHostChar c = true) :
    scanHost1 (c :: cs) = (c :: (scanHost1 cs).1, (scanHost1 cs).2) := by
  rw [scanHost1.eq_def]
  simp [h]

theorem scanHost1_cons_pct_hex (c h1 h2 : Char) (cs' : List Char)
    (hc : isHostChar c = false) (hp : (c == '%') = true)
    (hx : (isHexDig h1 && isHexDig h2) = true) :
    scanHost1 (c :: h1 :: h2 :: cs') =
      (c :: h1 :: h2 :: (scanHost1 cs').1, (scanHost1 cs').2) := by
  rw [scanHost1.eq_def]
  simp [hc, hp, hx]

theorem scanHost1_cons_pct_nonhex (c h1 h2 : Char) (cs' : List Char)
    (hc : isHostChar c = false) (hp : (c == '%') = true)
    (hx : (isHexDig h1 && isHexDig h2) = false) :
    scanHost1 (c :: h1 :: h2 :: cs') = ([], c :: h1 :: h2 :: cs') := by
  rw [scanHost1.eq_def]
  simp [hc, hp, hx]

theorem scanHost1_cons_notpct (c : Char) (cs : List Char)
    (hc : isHostChar c = false) (hp : (c == '%') = false) :
    scanHost1 (c :: cs) = ([], c :: cs) := by
  rw [scanHost1.eq_def]
  simp [hc, hp]

theorem scanHost1_singleton_pct (c : Char)
    (hc : isHostChar c = false) (hp : (c == '%') = true) :
    scanHost1 [c] = ([], [c]) := by
  rw [scanHost1.eq_def]
  simp [hc, hp]

theorem scanHost1_pair_pct (c x : Char)
    (hc : isHostChar c = false) (hp : (c == '%') = true) :
    scanHost1 [c, x] = ([], [c, x]) := by
  rw [scanHost1.eq_def]
  simp [hc, hp]

theorem scanHost1_parts : ∀ s : List Char, (scanHost1 s).1 ++ (scanHost1 s).2 = s := by
  intro s
  induction s using scanHost1.induct with
  | case1 => simp [scanHost1_nil]
  | case2 c cs hc ih =>
    rw [scanHost1_cons_host c cs hc]
    simpa using ih
  | case3 c hnc hpc h1 h2 cs' hhex ih =>
    rw [scanHost1_cons_pct_hex c h1 h2 cs' (by simpa using hnc) hpc hhex]
    simpa using ih
  | case4 c hnc hpc h1 h2 cs' hhex =>
    rw [scanHost1_cons_pct_nonhex c h1 h2 cs' (by simpa using hnc) hpc
      (by simpa using hhex)]
    simp
  | case5 c cs hnc hpc hshape =>
    cases cs with
    | nil => rw [scanHost1_singleton_pct c (by simpa using hnc) hpc]; simp
    | cons x xs =>
      cases xs with
      | nil => rw [scanHost1_pair_pct c x (by simpa using hnc) hpc]; simp
      | cons y ys => exact absurd rfl (hshape x y ys)
  | case6 c cs hnc hpc =>
    rw [scanHost1_cons_notpct c cs (by simpa using hnc) (by simpa using hpc)]
    simp

theorem scanHost1_full_append (b : Char) (v : List Char)
    (hb : isHostChar b = false) (hb' : (b == '%') = false) :
    ∀ a : List Char, scanHost1 a = (a, []) →
      scanHost1 (a ++ b :: v) = (a, b :: v) := by
  intro a
  induction a using scanHost1.induct with
  | case1 =>
    intro _
    simpa using scanHost1_cons_notpct b v hb hb'
  | case2 c cs hc ih =>
    intro h
    rw [scanHost1_cons_host c cs hc] at h
    have hcs : scanHost1 cs = (cs, []) := by
      have h1 := congrArg Prod.fst h
      have h2 := congrArg Prod.snd h
      simp at h1 h2
      rw [Prod.ext_iff]
      exact ⟨h1, h2⟩
    rw [List.cons_append, scanHost1_cons_host c (cs ++ b :: v) hc, ih hcs]
  | case3 c hnc hpc h1 h2 cs' hhex ih =>
    intro h
    rw [scanHost1_cons_pct_hex c h1 h2 cs' (by simpa using hnc) hpc hhex] at h
    have hcs : scanHost1 cs' = (cs', []) := by
      have ha := congrArg Prod.fst h
      have hb2 := congrArg Prod.snd h
      simp at ha hb2
      rw [Prod.ext_iff]
      exact ⟨ha, hb2⟩
    rw [List.cons_append, List.cons_append, List.cons_append,
      scanHost1_cons_pct_hex c h1 h2 (cs' ++ b :: v) (by simpa using hnc) hpc hhex,
      ih hcs]
  | case4 c hnc hpc h1 h2 cs' hhex =>
    intro h
    rw [scanHost1_cons_pct_nonhex c h1 h2 cs' (by simpa using hnc) hpc
      (by simpa using hhex)] at h
    exact absurd (congrArg Prod.fst h) (by simp)
  | case5 c cs hnc hpc hshape =>
    intro h
    cases cs with
    | nil =>
      rw [scanHost1_singleton_pct c (by simpa using hnc) hpc] at h
      exact absurd (congrArg Prod.fst h) (by simp)
    | cons x xs =>
      cases xs with
      | nil =>
        rw [scanHost1_pair_pct c x (by simpa using hnc) hpc] at h
        exact absurd (congrArg Prod.fst h) (by simp)
      | cons y ys => exact absurd rfl (hshape x y ys)
  | case6 c cs hnc hpc =>
    intro h
    rw [scanHost1_cons_notpct c cs (by simpa using hnc) (by simpa using hpc)] at h
    exact absurd (congrArg Prod.fst h) (by simp)

theorem scanHost1_stop_append (c0 : Char) (r' v : List Char)
    (hc0' : (c0 == '%') = false) :
    ∀ a h, scanHost1 a = (h, c0 :: r') →
      scanHost1 (a ++ v) = (h, c0 :: (r' ++ v)) := by
  intro a
  induction a using scanHost1.induct with
  | case1 =>
    intro h hh
    rw [scanHost1_nil] at hh
    exact absurd (congrArg Prod.snd hh) (by simp)
  | case2 c cs hc ih =>
    intro h hh
    rw [scanHost1_cons_host c cs hc] at hh
    have h1 := congrArg Prod.fst hh
    have h2 := congrArg Prod.snd hh
    simp only at h1 h2
    rw [List.cons_append, scanHost1_cons_host c (cs ++ v) hc,
      ih (scanHost1 cs).1 (by rw [Prod.ext_iff]; exact ⟨rfl, h2⟩)]
    simp only at h1 ⊢
    rw [← h1]
  | case3 c hnc hpc h1 h2 cs' hhex ih =>
    intro h hh
    rw [scanHost1_cons_pct_hex c h1 h2 cs' (by simpa using hnc) hpc hhex] at hh
    have ha := congrArg Prod.fst hh
    have hb2 := congrArg Prod.snd hh
    simp only at ha hb2
    rw [List.cons_append, List.cons_append, List.cons_append,
      scanHost1_cons_pct_hex c h1 h2 (cs' ++ v) (by simpa using hnc) hpc hhex,
      ih (scanHost1 cs').1 (by rw [Prod.ext_iff]; exact ⟨rfl, hb2⟩)]
    rw [← ha]
  | case4 c hnc hpc h1 h2 cs' hhex =>
    intro h hh
    rw [scanHost1_cons_pct_nonhex c h1 h2 cs' (by simpa using hnc) hpc
      (by simpa using hhex)] at hh
    have ha := congrArg Prod.fst hh
    have hb2 := congrArg Prod.snd hh
    simp only at ha hb2
    have hc0c : c0 = c := by
      have := congrArg (fun l => l.headI) hb2
      simpa using this.symm
    exfalso
    rw [hc0c] at hc0'
    rw [hpc] at hc0'
    simp at hc0'
  | case5 c cs hnc hpc hshape =>
    intro h hh
    cases cs with
    | nil =>
      rw [scanHost1_singleton_pct c (by simpa using hnc) hpc] at hh
      have hb2 := congrArg Prod.snd hh
      simp only at hb2
      have hc0c : c0 = c := by
        have := congrArg (fun l => l.headI) hb2
        simpa using this.symm
      exfalso
      rw [hc0c, hpc] at hc0'
      simp at hc0'
    | cons x xs =>
      cases xs with
      | nil =>
        rw [scanHost1_pair_pct c x (by simpa using hnc) hpc] at hh
        have hb2 := congrArg Prod.snd hh
        simp only at hb2
        have hc0c : c0 = c := by
          have := congrArg (fun l => l.headI) hb2
          simpa using this.symm
        exfalso
        rw [hc0c, hpc] at hc0'
        simp at hc0'
      | cons y ys => exact absurd rfl (hshape x y ys)
  | case6 c cs hnc hpc =>
    intro h hh
    rw [scanHost1_cons_notpct c cs (by simpa using hnc) (by simpa using hpc)] at hh
    have ha := congrArg Prod.fst hh
    have hb2 := congrArg Prod.snd hh
    simp only at ha hb2
    have hcc : c0 = c ∧ r' = cs := by
      have h3 : c :: cs = c0 :: r' := hb2
      exact ⟨(List.cons.injEq _ _ _ _ ▸ h3).1.symm, ((List.cons.injEq _ _ _ _ ▸ h3).2).symm⟩
    rw [List.cons_append, scanHost1_cons_notpct c (cs ++ v) (by simpa using hnc)
      (by simpa using hpc), ← ha, hcc.1, hcc.2]

theorem takeWhile_all_append (f : Char → Bool) (b : Char) (hb : f b = false) :
    ∀ (a v : List Char), (∀ x ∈ a, f x = true) →
      (a ++ b :: v).takeWhile f = a ∧ (a ++ b :: v).dropWhile f = b :: v := by
  intro a
  induction a with
  | nil =>
    intro v _
    simp [List.takeWhile, List.dropWhile, hb]
  | cons c cs ih =>
    intro v hall
    have hc : f c = true := hall c (List.mem_cons_self c cs)
    have hrest := ih v (fun x hx => hall x (List.mem_cons_of_mem c hx))
    simp [List.takeWhile, List.dropWhile, hc, hrest.1, hrest.2]

theorem scanPath_parts : ∀ s : List Char, (scanPath s).1 ++ (scanPath s).2 = s := by
  intro s
  cases s with
  | nil => rfl
  | cons c cs =>
    by_cases h : c = '/'
    · simp [scanPath, h, List.takeWhile_append_dropWhile]
    · simp [scanPath, h]

theorem scanPath_stop (c : Char) (s : List Char) (h : ¬ c = '/') :
    scanPath (c :: s) = ([], c :: s) := by
  simp [scanPath, h]

theorem scanPath_full_append (r v : List Char) (hr : r ≠ [])
    (h : scanPath r = (r, [])) :
    scanPath (r ++ ' ' :: v) = (r, ' ' :: v) := by
  cases r with
  | nil => exact absurd rfl hr
  | cons c cs =>
    by_cases hc : c = '/'
    · subst hc
      have hall : ∀ x ∈ '/' :: cs, isPathChar x = true := by
        have hdrop : ('/' :: cs).dropWhile isPathChar = [] := by
          have := congrArg Prod.snd h
          simpa [scanPath] using this
        exact List.dropWhile_eq_nil_iff.1 hdrop
      have happ := takeWhile_all_append isPathChar ' ' (by decide) ('/' :: cs) v hall
      rw [List.cons_append, scanPath.eq_def]
      simp only [if_pos rfl]
      rw [← List.cons_append, happ.1, happ.2]
      simp
    · rw [scanPath_stop c cs hc] at h
      exact absurd (congrArg Prod.snd h) (by simp)


theorem matchP1_cons_nothead (c : Char) (s : List Char)
    (h : chEq c 'h' 'H' = false) : matchP1 (c :: s) = none := by
  have hsh : stripHttpHead (c :: s) = none := by
    match s with
    | [] => rfl
    | [c1] => rfl
    | [c1, c2] => rfl
    | c1 :: c2 :: c3 :: rest =>
      rw [stripHttpHead.eq_def]
      simp [h]
  simp [matchP1, hsh]

theorem matchP2_cons_notw (c : Char) (s : List Char)
    (h : chEq c 'w' 'W' = false) : matchP2 (c :: s) = none := by
  match s with
  | [] => rfl
  | [c1] => rfl
  | [c1, c2] => rfl
  | c1 :: c2 :: c3 :: rest =>
    rw [matchP2.eq_def]
    simp [h]

theorem stripHttpHead_append (u pre rest : List Char)
    (hu : stripHttpHead u = some (pre, rest)) (hne : rest ≠ []) (v : List Char) :
    stripHttpHead (u ++ v) = some (pre, rest ++ v) := by
  match u with
  | [] => simp [stripHttpHead] at hu
  | [c0] => simp [stripHttpHead] at hu
  | [c0, c1] => simp [stripHttpHead] at hu
  | [c0, c1, c2] => simp [stripHttpHead] at hu
  | [c0, c1, c2, c3] =>
    simp only [stripHttpHead.eq_def] at hu
    by_cases hcond : (chEq c0 'h' 'H' && chEq c1 't' 'T' && chEq c2 't' 'T' &&
        chEq c3 'p' 'P') = true
    · rw [if_pos hcond] at hu
      simp at hu
    · rw [if_neg hcond] at hu
      simp at hu
  | [c0, c1, c2, c3, c4] =>
    simp only [stripHttpHead.eq_def] at hu
    by_cases hcond : (chEq c0 'h' 'H' && chEq c1 't' 'T' && chEq c2 't' 'T' &&
        chEq c3 'p' 'P') = true
    · rw [if_pos hcond] at hu
      simp at hu
    · rw [if_neg hcond] at hu
      simp at hu
  | [c0, c1, c2, c3, c4, c5] =>
    simp only [stripHttpHead.eq_def] at hu
    by_cases hcond : (chEq c0 'h' 'H' && chEq c1 't' 'T' && chEq c2 't' 'T' &&
        chEq c3 'p' 'P') = true
    · rw [if_pos hcond] at hu
      simp at hu
    · rw [if_neg hcond] at hu
      simp at hu
  | [c0, c1, c2, c3, c4, c5, c6] =>
    simp only [stripHttpHead.eq_def] at hu
    by_cases hcond : (chEq c0 'h' 'H' && chEq c1 't' 'T' && chEq c2 't' 'T' &&
        chEq c3 'p' 'P') = true
    · rw [if_pos hcond] at hu
      by_cases h2 : (c4 == ':' && c5 == '/' && c6 == '/') = true
      · rw [if_pos h2] at hu
        have : rest = [] := by
          have := congrArg (fun o => Option.map Prod.snd o) hu
          simpa using this.symm
        exact absurd this hne
      · rw [if_neg h2] at hu
        simp at hu
    · rw [if_neg hcond] at hu
      simp at hu
  | c0 :: c1 :: c2 :: c3 :: c4 :: c5 :: c6 :: c7 :: rest' =>
    simp only [stripHttpHead.eq_def] at hu
    show stripHttpHead (c0 :: c1 :: c2 :: c3 :: c4 :: c5 :: c6 :: c7 ::
      (rest' ++ v)) = some (pre, rest ++ v)
    simp only [stripHttpHead.eq_def]
    by_cases hcond : (chEq c0 'h' 'H' && chEq c1 't' 'T' && chEq c2 't' 'T' &&
        chEq c3 'p' 'P') = true
    · rw [if_pos hcond] at hu ⊢
      by_cases hs : chEq c4 's' 'S' = true
      · rw [if_pos hs] at hu ⊢
        by_cases h2 : (c5 == ':' && c6 == '/' && c7 == '/') = true
        · rw [if_pos h2] at hu ⊢
          have hp : pre = [c0, c1, c2, c3, c4, c5, c6, c7] := by
            have := congrArg (fun o => Option.map Prod.fst o) hu
            simpa using this.symm
          have hr : rest = rest' := by
            have := congrArg (fun o => Option.map Prod.snd o) hu
            simpa using this.symm
          rw [hp, hr]
        · rw [if_neg h2] at hu
          simp at hu
      · rw [if_neg hs] at hu ⊢
        by_cases h2 : (c4 == ':' && c5 == '/' && c6 == '/') = true
        · rw [if_pos h2] at hu ⊢
          have hp : pre = [c0, c1, c2, c3, c4, c5, c6] := by
            have := congrArg (fun o => Option.map Prod.fst o) hu
            simpa using this.symm
          have hr : rest = c7 :: rest' := by
            have := congrArg (fun o => Option.map Prod.snd o) hu
            simpa using this.symm
          rw [hp, hr]
          simp
        · rw [if_neg h2] at hu
          simp at hu
    · rw [if_neg hcond] at hu
      simp at hu

theorem matchP1_token_append (u : List Char) (h : matchP1 u = some (u, []))
    (v : List Char) : matchP1 (u ++ ' ' :: v) = some (u, ' ' :: v) := by
  cases hsh : stripHttpHead u with
  | none => simp [matchP1, hsh] at h
  | some pr =>
    obtain ⟨pre, rest⟩ := pr
    simp only [matchP1, hsh] at h
    by_cases hemp : (scanHost1 rest).1.isEmpty = true
    · rw [if_pos hemp] at h
      simp at h
    · rw [if_neg hemp] at h
      simp only [Option.some.injEq, Prod.mk.injEq] at h
      obtain ⟨hu, hr2⟩ := h
      have hstne : (scanHost1 rest).1 ≠ [] := by
        intro hx
        rw [hx] at hemp
        exact hemp rfl
      have hrestne : rest ≠ [] := by
        intro hx
        rw [hx] at hstne
        exact hstne rfl
      have hsh' := stripHttpHead_append u pre rest hsh hrestne (' ' :: v)
      cases hr1 : (scanHost1 rest).2 with
      | nil =>
        have hfull : scanHost1 rest = (rest, []) := by
          have hparts := scanHost1_parts rest
          rw [hr1, List.append_nil] at hparts
          rw [Prod.ext_iff]
          exact ⟨hparts, hr1⟩
        have hsc' := scanHost1_full_append ' ' v (by decide) (by decide) rest hfull
        have h1 : (scanHost1 rest).1 = rest := by rw [hfull]
        have hp : (scanPath (scanHost1 rest).2).1 = [] := by
          rw [hr1]
          rfl
        rw [h1, hp] at hu
        simp only [List.append_nil] at hu
        have hre : rest.isEmpty = false := by
          cases rest with
          | nil => exact absurd rfl hrestne
          | cons a l => rfl
        simp only [matchP1, hsh', hsc']
        rw [if_neg (by simp [hre])]
        rw [scanPath_stop ' ' v (by decide)]
        simp [hu]
      | cons c r1' =>
        by_cases hc : c = '/'
        · subst hc
          rw [hr1] at hr2 hu
          have hpeq : (scanPath ('/' :: r1')).1 = '/' :: r1' := by
            have hparts := scanPath_parts ('/' :: r1')
            rw [hr2, List.append_nil] at hparts
            exact hparts
          have hfullpath : scanPath ('/' :: r1') = ('/' :: r1', []) := by
            rw [Prod.ext_iff]
            exact ⟨hpeq, hr2⟩
          have hsp' := scanPath_full_append ('/' :: r1') v (by simp) hfullpath
          have hsc' := scanHost1_stop_append '/' r1' (' ' :: v) (by decide)
            rest (scanHost1 rest).1 (by rw [Prod.ext_iff]; exact ⟨rfl, hr1⟩)
          rw [hpeq] at hu
          simp only [matchP1, hsh', hsc']
          rw [if_neg (by simpa [List.isEmpty_iff] using hstne)]
          have hcons : '/' :: (r1' ++ ' ' :: v) = ('/' :: r1') ++ ' ' :: v := by
            simp
          rw [hcons, hsp']
          simp [hu]
        · exfalso
          rw [hr1, scanPath_stop c r1' hc] at hr2
          simp at hr2

theorem matchP2_append_space (a : List Char) (h : matchP2 a = none)
    (b : List Char) : matchP2 (a ++ ' ' :: b) = none := by
  match a with
  | [] => exact matchP2_cons_notw ' ' b (by decide)
  | [c0] =>
    match b with
    | [] => rfl
    | [x] => rfl
    | x :: y :: b' =>
      show matchP2 (c0 :: ' ' :: x :: y :: b') = none
      rw [matchP2.eq_def]
      simp [chEq]
  | [c0, c1] =>
    match b with
    | [] => rfl
    | x :: b' =>
      show matchP2 (c0 :: c1 :: ' ' :: x :: b') = none
      rw [matchP2.eq_def]
      simp [chEq]
  | [c0, c1, c2] =>
    show matchP2 (c0 :: c1 :: c2 :: ' ' :: b) = none
    rw [matchP2.eq_def]
    simp
  | c0 :: c1 :: c2 :: c3 :: rest =>
    simp only [matchP2.eq_def] at h
    show matchP2 (c0 :: c1 :: c2 :: c3 :: (rest ++ ' ' :: b)) = none
    simp only [matchP2.eq_def]
    by_cases hcond : (chEq c0 'w' 'W' && chEq c1 'w' 'W' && chEq c2 'w' 'W' &&
        c3 == '.') = true
    · rw [if_pos hcond] at h ⊢
      by_cases hemp : (rest.takeWhile isHostChar).isEmpty = true
      · cases rest with
        | nil =>
          simp only [List.nil_append]
          rw [if_pos (by simp [List.takeWhile_cons, isHostChar, isWordChar])]
        | cons r rest'' =>
          have hr : isHostChar r = false := by
            by_contra hx
            have : isHostChar r = true := by
              cases hy : isHostChar r with
              | true => rfl
              | false => exact absurd hy hx
            rw [List.takeWhile_cons, if_pos this] at hemp
            simp at hemp
          rw [List.cons_append]
          rw [if_pos (by simp [List.takeWhile_cons, hr])]
      · rw [if_neg hemp] at h
        simp at h
    · rw [if_neg hcond] at h ⊢

theorem noP2_cons (c : Char) (cs : List Char) :
    noP2 (c :: cs) = ((matchP2 (c :: cs)).isNone && noP2 cs) := rfl

theorem noP2_head_none (c : Char) (cs : List Char) (h : noP2 (c :: cs) = true) :
    matchP2 (c :: cs) = none := by
  rw [noP2_cons] at h
  rcases Bool.and_eq_true_iff.1 h with ⟨h1, _⟩
  exact Option.isNone_iff_eq_none.1 h1

theorem noP2_tail (c : Char) (cs : List Char) (h : noP2 (c :: cs) = true) :
    noP2 cs = true := by
  rw [noP2_cons] at h
  exact (Bool.and_eq_true_iff.1 h).2

theorem noP2_append (a b : List Char) (ha : noP2 a = true) (hb : noP2 b = true) :
    noP2 (a ++ ' ' :: b) = true := by
  induction a with
  | nil =>
    rw [List.nil_append, noP2_cons]
    rw [matchP2_cons_notw ' ' b (by decide)]
    simpa using hb
  | cons c a' ih =>
    rw [List.cons_append, noP2_cons]
    have hm := matchP2_append_space (c :: a') (noP2_head_none c a' ha) b
    rw [List.cons_append] at hm
    rw [hm]
    simpa using ih (noP2_tail c a' ha)

theorem goF_skip (m : List Char → Option (List Char × List Char)) :
    ∀ (xs r : List Char), goF m (xs ++ r) xs.length = goF m r 0 := by
  intro xs
  induction xs with
  | nil => intro r; simp
  | cons x xs ih =>
    intro r
    rw [List.cons_append, List.length_cons]
    show goF m (x :: (xs ++ r)) (xs.length + 1) = goF m r 0
    rw [goF]
    exact ih r

theorem goF_matchP2_nil : ∀ s : List Char, noP2 s = true → goF matchP2 s 0 = [] := by
  intro s
  induction s with
  | nil => intro _; rfl
  | cons c cs ih =>
    intro h
    rw [goF]
    rw [noP2_head_none c cs h]
    exact ih (noP2_tail c cs h)

theorem goF_matchP1_space (J : List Char) : goF matchP1 (' ' :: J) 0 = goF matchP1 J 0 := by
  rw [goF, matchP1_cons_nothead ' ' J (by decide)]

theorem findAll_token (u : List Char) (hm : matchP1 u = some (u, []))
    (hne : u ≠ []) : findAll matchP1 u = [u] := by
  cases u with
  | nil => exact absurd rfl hne
  | cons c t' =>
    show goF matchP1 (c :: t') 0 = [c :: t']
    simp only [goF, hm]
    have : (c :: t').length - 1 = t'.length := by simp
    rw [this]
    have hskip := goF_skip matchP1 t' []
    rw [List.append_nil] at hskip
    rw [hskip]
    rfl

theorem findAll_token_join : ∀ us : List (List Char),
    (∀ u ∈ us, matchP1 u = some (u, []) ∧ u ≠ []) →
    findAll matchP1 (joinL us) = us := by
  intro us
  induction us with
  | nil => intro _; rfl
  | cons u us' ih =>
    intro hall
    have hu := hall u (List.mem_cons_self u us')
    cases us' with
    | nil => exact findAll_token u hu.1 hu.2
    | cons v vs =>
      have hJ : joinL (u :: v :: vs) = u ++ ' ' :: joinL (v :: vs) := rfl
      rw [hJ]
      have hmt := matchP1_token_append u hu.1 (joinL (v :: vs))
      cases hcu : u with
      | nil => exact absurd hcu hu.2
      | cons c t' =>
        subst hcu
        show goF matchP1 ((c :: t') ++ ' ' :: joinL (v :: vs)) 0 =
          (c :: t') :: v :: vs
        rw [List.cons_append] at hmt
        rw [List.cons_append]
        simp only [goF, hmt]
        have hlen : (c :: t').length - 1 = t'.length := by simp
        rw [hlen]
        have hskip := goF_skip matchP1 t' (' ' :: joinL (v :: vs))
        rw [hskip, goF_matchP1_space]
        have hrest := ih (fun x hx => hall x (List.mem_cons_of_mem (c :: t') hx))
        rw [show goF matchP1 (joinL (v :: vs)) 0 =
          findAll matchP1 (joinL (v :: vs)) from rfl, hrest]

theorem noP2_joinL : ∀ us : List (List Char), (∀ u ∈ us, noP2 u = true) →
    noP2 (joinL us) = true := by
  intro us
  induction us with
  | nil => intro _; rfl
  | cons u us' ih =>
    intro hall
    have hu := hall u (List.mem_cons_self u us')
    cases us' with
    | nil => exact hu
    | cons v vs =>
      have hJ : joinL (u :: v :: vs) = u ++ ' ' :: joinL (v :: vs) := rfl
      rw [hJ]
      exact noP2_append u (joinL (v :: vs)) hu
        (ih (fun x hx => hall x (List.mem_cons_of_mem u hx)))

theorem filterMap_self (us : List (List Char))
    (h : ∀ u ∈ us, cleanLink u = some u) : us.filterMap cleanLink = us := by
  induction us with
  | nil => rfl
  | cons u us' ih =>
    rw [List.filterMap_cons, h u (List.mem_cons_self u us')]
    rw [ih (fun x hx => h x (List.mem_cons_of_mem u hx))]

theorem dedupGo_self : ∀ (us seen : List (List Char)), us.Nodup →
    (∀ u ∈ us, u ∉ seen) → dedupGo seen us = us := by
  intro us
  induction us with
  | nil => intro seen _ _; rfl
  | cons u us' ih =>
    intro seen hnd hfresh
    have hu : u ∉ seen := hfresh u (List.mem_cons_self u us')
    rw [dedupGo, if_neg hu]
    rw [ih (u :: seen) (List.nodup_cons.1 hnd).2 ?_]
    intro x hx
    intro hmem
    rcases List.mem_cons.1 hmem with rfl | hmem'
    · exact (List.nodup_cons.1 hnd).1 hx
    · exact hfresh x (List.mem_cons_of_mem u hx) hmem'

theorem cleanLink_self_ne_nil (u : List Char) (h : cleanLink u = some u) :
    u ≠ [] := by
  intro hnil
  rw [hnil] at h
  exact absurd h (by decide)

theorem goodToken_parts (u : List Char) (h : goodToken u = true) :
    matchP1 u = some (u, []) ∧ noP2 u = true ∧ cleanLink u = some u := by
  unfold goodToken at h
  rcases Bool.and_eq_true_iff.1 h with ⟨h12, h3⟩
  rcases Bool.and_eq_true_iff.1 h12 with ⟨h1, h2⟩
  exact ⟨eq_of_beq h1, h2, eq_of_beq h3⟩

theorem map_data_mk (us : List (List Char)) :
    (us.map (fun l => String.mk l)).map String.data = us := by
  induction us with
  | nil => rfl
  | cons u us' ih => simp [ih]

theorem extractL_joinL_self (us : List (List Char)) (hnd : us.Nodup)
    (hg : ∀ u ∈ us, goodToken u = true) : extractL (joinL us) = us := by
  have h1 : findAll matchP1 (joinL us) = us :=
    findAll_token_join us (fun u hu =>
      ⟨(goodToken_parts u (hg u hu)).1,
       cleanLink_self_ne_nil u (goodToken_parts u (hg u hu)).2.2⟩)
  have h2 : findAll matchP2 (joinL us) = [] :=
    goF_matchP2_nil (joinL us)
      (noP2_joinL us (fun u hu => (goodToken_parts u (hg u hu)).2.1))
  unfold extractL
  rw [h1, h2, List.append_nil]
  rw [filterMap_self us (fun u hu => (goodToken_parts u (hg u hu)).2.2)]
  exact dedupGo_self us [] hnd (by intro u _; simp)

/-- **C9, amended.**  Re-extraction from the space-joined output yields
the same sequence whenever every extracted URL is a standalone
scheme-form token (a full match of the scheme pattern, with no embedded
www-form match, left unchanged by cleaning) — in particular whenever all
extracted links are ordinary `http(s)://` URLs.  Full idempotence as
claimed fails: an output containing a www-form candidate that escapes the
case-sensitive `www.` rewrite is reordered on re-extraction. -/
theorem extract_links_idem_on_scheme_tokens (t : String)
    (hgood : ∀ u ∈ extractL t.data, goodToken u = true) :
    extract_links (spaceJoin (extract_links t)) = extract_links t := by
  have hnd : (extractL t.data).Nodup := dedupF_nodup _
  have hmain := extractL_joinL_self (extractL t.data) hnd hgood
  have hdata : (spaceJoin (extract_links t)).data = joinL (extractL t.data) := by
    unfold spaceJoin extract_links
    show (joinL (((extractL t.data).map (fun l => String.mk l)).map String.data)) = _
    rw [map_data_mk]
  show (extractL (spaceJoin (extract_links t)).data).map (fun l => String.mk l) =
    extract_links t
  rw [hdata, hmain]
  rfl

/-- Witness for C9 (amended): on the spec's example text the single
extracted URL is a clean scheme-form token and re-extraction returns the
same sequence. -/
theorem extract_links_idem_on_scheme_tokens_witness :
    extract_links (spaceJoin (extract_links "See https://example.com.")) =
      extract_links "See https://example.com." :=
  extract_links_idem_on_scheme_tokens "See https://example.com." (by decide)

/-- **C9, counterexample.**  The text `"WWW.ABCDEF.COM www.abcdef.org"`
extracts to `["WWW.ABCDEF.COM", "https://www.abcdef.org"]`; re-extracting
from the space-joined output yields the same URLs in a different order
(the now scheme-prefixed URL is matched by the first pattern and moves to
the front), so extraction is not idempotent as a sequence. -/
theorem extract_links_not_idempotent :
    extract_links "WWW.ABCDEF.COM www.abcdef.org" =
      ["WWW.ABCDEF.COM", "https://www.abcdef.org"] ∧
    extract_links (spaceJoin (extract_links "WWW.ABCDEF.COM www.abcdef.org")) =
      ["https://www.abcdef.org", "WWW.ABCDEF.COM"] ∧
    extract_links (spaceJoin (extract_links "WWW.ABCDEF.COM www.abcdef.org")) ≠
      extract_links "WWW.ABCDEF.COM www.abcdef.org" := by
  refine ⟨by decide, by decide, by decide⟩
